import Mathlib

/-!
Verification of the MovizLand content classification / sectioning layer
(`app/(tabs)/apiUtils.ts` and the paginator of `app/(tabs)/list.tsx`).

Modelling conventions:
* A JavaScript string is a sequence of UTF-16 code units, embedded as
  `List Nat` (astral code points become surrogate pairs, see `jstr`).
* The regex-replace chains of `cleanTitle` are embedded as left-to-right
  scanners that mirror the semantics of the corresponding JavaScript
  regexes (`/<[^>]*>/g`, `/&#(\d+);/g`, the case-insensitive entity
  replacements, `/&[a-z]+;/gi`) including greedy matching and the
  resumption point after a match.  The scanners consume one match or one
  code unit per step, so they are written with an explicit step budget
  (`fuel`), always called with `fuel = length`, which keeps them
  structurally recursive and kernel-evaluable.
* `Array.prototype.sort` with a comparator is a stable sort; it is
  embedded as a stable insertion sort (`sortDescBy`).
* `Map` iteration order is key insertion order; a `Map` built by the
  grouping loops is embedded as an association list (`addToGroup`).
-/

/-- Lowercase an ASCII letter code unit (JavaScript `/i` canonicalisation for
ASCII patterns: only `A`-`Z` fold onto `a`-`z`). -/
def lowCU (c : Nat) : Nat := if 65 ≤ c ∧ c ≤ 90 then c + 32 else c

/-- Decimal digit code unit (regex `\d`). -/
def isDigitCU (c : Nat) : Bool := 48 ≤ c && c ≤ 57

/-- Regex word character (`\w`), used for the `\b` boundary. -/
def isWordCU (c : Nat) : Bool :=
  (65 ≤ c && c ≤ 90) || (97 ≤ c && c ≤ 122) || isDigitCU c || c == 95

/-- The JavaScript WhiteSpace ∪ LineTerminator set, shared by `\s` and
`String.prototype.trim`. -/
def isSpaceCU (c : Nat) : Bool :=
  c == 9 || c == 10 || c == 11 || c == 12 || c == 13 || c == 32 ||
  c == 160 || c == 5760 || (8192 ≤ c && c ≤ 8202) || c == 8232 ||
  c == 8233 || c == 8239 || c == 8287 || c == 12288 || c == 65279

/-- UTF-16 code units of one Unicode scalar value. -/
def utf16Units (c : Nat) : List Nat :=
  if c < 65536 then [c]
  else [55296 + (c - 65536) / 1024, 56320 + (c - 65536) % 1024]

/-- A Lean string literal as a JavaScript string (list of UTF-16 code units). -/
def jstr (s : String) : List Nat :=
  (s.toList.map (fun c => utf16Units c.toNat)).flatten

/-- Rest of `l` after the first `>` (code unit 62), if any: the extent of a
`/<[^>]*>/` match that started just before `l`. -/
def splitAfterGt : List Nat → Option (List Nat)
  | [] => none
  | c :: rest => if c == 62 then some rest else splitAfterGt rest

theorem splitAfterGt_length {l r : List Nat} (h : splitAfterGt l = some r) :
    r.length < l.length := by
  induction l with
  | nil => simp [splitAfterGt] at h
  | cons c rest ih =>
    simp only [splitAfterGt] at h
    by_cases hc : c == 62
    · simp [hc] at h; subst h; simp
    · simp [hc] at h; exact Nat.lt_trans (ih h) (by simp)

/-- Embedding of `.replace(/<[^>]*>/g, "")`: drop every `<`…`>` region (up to the first
`>`); a `<` with no later `>` matches nothing and is kept. -/
def stripTagsGo : Nat → List Nat → List Nat
  | 0, l => l
  | _ + 1, [] => []
  | fuel + 1, c :: rest =>
    if c == 60 then
      match splitAfterGt rest with
      | some rest2 => stripTagsGo fuel rest2
      | none => c :: stripTagsGo fuel rest
    else c :: stripTagsGo fuel rest

def stripTags (l : List Nat) : List Nat := stripTagsGo l.length l

/-- Split a maximal leading digit run. -/
def takeDigits : List Nat → List Nat × List Nat
  | [] => ([], [])
  | c :: rest =>
    if isDigitCU c then
      let r := takeDigits rest
      (c :: r.1, r.2)
    else ([], c :: rest)

theorem takeDigits_length (l : List Nat) : (takeDigits l).2.length ≤ l.length := by
  induction l with
  | nil => simp [takeDigits]
  | cons c rest ih =>
    simp only [takeDigits]
    by_cases hc : isDigitCU c
    · simp [hc]; exact Nat.le_trans ih (by simp)
    · simp [hc]

/-- Numeric value of a digit-run (JavaScript `Number` on a decimal string). -/
def digitsVal (ds : List Nat) : Nat := ds.foldl (fun a c => a * 10 + (c - 48)) 0

/-- Embedding of `.replace(/&#(\d+);/g, (_, code) => String.fromCharCode(Number(code)))`:
a numeric character reference becomes the code unit `value % 2^16`
(`fromCharCode` applies ToUint16). -/
def numRefGo : Nat → List Nat → List Nat
  | 0, l => l
  | _ + 1, [] => []
  | fuel + 1, c :: rest =>
    if c = 38 ∧ rest.head? = some 35 then
      let r := takeDigits rest.tail
      if r.1 ≠ [] ∧ r.2.head? = some 59 then
        (digitsVal r.1 % 65536) :: numRefGo fuel r.2.tail
      else c :: numRefGo fuel rest
    else c :: numRefGo fuel rest

def numRef (l : List Nat) : List Nat := numRefGo l.length l

/-- Case-insensitive literal match: rest of `l` after the pattern, if the
pattern is a (case-folded) prefix of `l`. -/
def stripLitCI (pat l : List Nat) : Option (List Nat) :=
  match pat, l with
  | [], l => some l
  | _ :: _, [] => none
  | p :: ps, c :: cs => if lowCU c == lowCU p then stripLitCI ps cs else none

theorem stripLitCI_length {pat l r : List Nat} (h : stripLitCI pat l = some r) :
    r.length ≤ l.length := by
  induction pat generalizing l with
  | nil => simp [stripLitCI] at h; subst h; exact Nat.le_refl _
  | cons p ps ih =>
    cases l with
    | nil => simp [stripLitCI] at h
    | cons c cs =>
      simp only [stripLitCI] at h
      by_cases hc : lowCU c == lowCU p
      · simp [hc] at h; exact Nat.le_trans (ih h) (by simp)
      · simp [hc] at h

/-- Embedding of `.replace(/pat/gi, rep)` for a literal pattern `p0 :: ptl`: replace every
case-insensitive occurrence, scanning left to right and resuming after each
replacement. -/
def replaceCIGo (p0 : Nat) (ptl rep : List Nat) : Nat → List Nat → List Nat
  | 0, l => l
  | _ + 1, [] => []
  | fuel + 1, c :: rest =>
    if lowCU c == lowCU p0 then
      match stripLitCI ptl rest with
      | some rest2 => rep ++ replaceCIGo p0 ptl rep fuel rest2
      | none => c :: replaceCIGo p0 ptl rep fuel rest
    else c :: replaceCIGo p0 ptl rep fuel rest

def replaceCI (p0 : Nat) (ptl rep l : List Nat) : List Nat :=
  replaceCIGo p0 ptl rep l.length l

/-- Split a maximal leading run of ASCII letters (regex `[a-z]+` under `/i`). -/
def takeLetters : List Nat → List Nat × List Nat
  | [] => ([], [])
  | c :: rest =>
    if 97 ≤ lowCU c ∧ lowCU c ≤ 122 then
      let r := takeLetters rest
      (c :: r.1, r.2)
    else ([], c :: rest)

theorem takeLetters_length (l : List Nat) : (takeLetters l).2.length ≤ l.length := by
  induction l with
  | nil => simp [takeLetters]
  | cons c rest ih =>
    simp only [takeLetters]
    by_cases hc : 97 ≤ lowCU c ∧ lowCU c ≤ 122
    · simp [hc]; exact Nat.le_trans ih (by simp)
    · simp [hc]

/-- Embedding of `.replace(/&[a-z]+;/gi, "")`: drop every ampersand entity made of letters. -/
def dropEntitiesGo : Nat → List Nat → List Nat
  | 0, l => l
  | _ + 1, [] => []
  | fuel + 1, c :: rest =>
    if c = 38 then
      let r := takeLetters rest
      if r.1 ≠ [] ∧ r.2.head? = some 59 then dropEntitiesGo fuel r.2.tail
      else c :: dropEntitiesGo fuel rest
    else c :: dropEntitiesGo fuel rest

def dropEntities (l : List Nat) : List Nat := dropEntitiesGo l.length l

/-- Trailing-whitespace strip (the back half of `String.prototype.trim`). -/
def trimEnd : List Nat → List Nat
  | [] => []
  | c :: l =>
    match trimEnd l with
    | [] => if isSpaceCU c then [] else [c]
    | r => c :: r

/-- Embedding of `String.prototype.trim`. -/
def trimJS (l : List Nat) : List Nat := trimEnd (l.dropWhile isSpaceCU)

/-- Embedding of `cleanTitle` of `apiUtils.ts`: strip tags, decode numeric references,
decode the six named entities, drop remaining letter entities, trim. -/
def cleanTitle (html : List Nat) : List Nat :=
  trimJS
    (dropEntities
      (replaceCI 38 (jstr "nbsp;") (jstr " ")
        (replaceCI 38 (jstr "apos;") [39]
          (replaceCI 38 (jstr "quot;") [34]
            (replaceCI 38 (jstr "gt;") [62]
              (replaceCI 38 (jstr "lt;") [60]
                (replaceCI 38 (jstr "amp;") [38]
                  (numRef (stripTags html)))))))))

example : cleanTitle (jstr "&lt;x&gt;") = [60, 120, 62] := by decide
example : cleanTitle (cleanTitle (jstr "&lt;x&gt;")) = [] := by decide
example : cleanTitle (jstr " <b>Movie &amp; Fun&#33;</b> ") = jstr "Movie & Fun!" := by decide

/-! ### Identity of the `cleanTitle` stages on already-clean text -/

theorem lowCU_eq_38 {c : Nat} (h : lowCU c = 38) : c = 38 := by
  unfold lowCU at h
  split at h <;> omega

theorem stripTagsGo_id (fuel : Nat) : ∀ l : List Nat, 60 ∉ l → stripTagsGo fuel l = l := by
  induction fuel with
  | zero => intro l _; rfl
  | succ f ih =>
    intro l h
    cases l with
    | nil => rfl
    | cons c rest =>
      have hc : ¬(c = 60) := fun e => h (e ▸ List.mem_cons_self c rest)
      have hr : 60 ∉ rest := fun m => h (List.mem_cons_of_mem c m)
      simp [stripTagsGo, hc, ih rest hr]

theorem stripTags_id {l : List Nat} (h : 60 ∉ l) : stripTags l = l :=
  stripTagsGo_id l.length l h

theorem numRefGo_id (fuel : Nat) : ∀ l : List Nat, 38 ∉ l → numRefGo fuel l = l := by
  induction fuel with
  | zero => intro l _; rfl
  | succ f ih =>
    intro l h
    cases l with
    | nil => rfl
    | cons c rest =>
      have hc : ¬(c = 38) := fun e => h (e ▸ List.mem_cons_self c rest)
      have hr : 38 ∉ rest := fun m => h (List.mem_cons_of_mem c m)
      simp [numRefGo, hc, ih rest hr]

theorem numRef_id {l : List Nat} (h : 38 ∉ l) : numRef l = l :=
  numRefGo_id l.length l h

theorem replaceCIGo_id (ptl rep : List Nat) (fuel : Nat) :
    ∀ l : List Nat, 38 ∉ l → replaceCIGo 38 ptl rep fuel l = l := by
  induction fuel with
  | zero => intro l _; rfl
  | succ f ih =>
    intro l h
    cases l with
    | nil => rfl
    | cons c rest =>
      have hc : ¬(c = 38) := fun e => h (e ▸ List.mem_cons_self c rest)
      have hlow : ¬(lowCU c = lowCU 38) := by
        intro e
        exact hc (lowCU_eq_38 e)
      have hr : 38 ∉ rest := fun m => h (List.mem_cons_of_mem c m)
      simp [replaceCIGo, hlow, ih rest hr]

theorem replaceCI_id {ptl rep l : List Nat} (h : 38 ∉ l) :
    replaceCI 38 ptl rep l = l :=
  replaceCIGo_id ptl rep l.length l h

theorem dropEntitiesGo_id (fuel : Nat) :
    ∀ l : List Nat, 38 ∉ l → dropEntitiesGo fuel l = l := by
  induction fuel with
  | zero => intro l _; rfl
  | succ f ih =>
    intro l h
    cases l with
    | nil => rfl
    | cons c rest =>
      have hc : ¬(c = 38) := fun e => h (e ▸ List.mem_cons_self c rest)
      have hr : 38 ∉ rest := fun m => h (List.mem_cons_of_mem c m)
      simp [dropEntitiesGo, hc, ih rest hr]

theorem dropEntities_id {l : List Nat} (h : 38 ∉ l) : dropEntities l = l :=
  dropEntitiesGo_id l.length l h

/-! ### Idempotence of `trimJS` -/

theorem trimEnd_cons (c : Nat) (l : List Nat) :
    trimEnd (c :: l) =
      match trimEnd l with
      | [] => if isSpaceCU c then [] else [c]
      | r => c :: r := rfl

theorem trimEnd_trimEnd (l : List Nat) : trimEnd (trimEnd l) = trimEnd l := by
  induction l with
  | nil => rfl
  | cons c l ih =>
    cases h : trimEnd l with
    | nil =>
      by_cases hc : isSpaceCU c
      · simp [trimEnd_cons, h, hc, trimEnd]
      · simp [trimEnd_cons, h, hc, trimEnd]
    | cons b r =>
      have h2 : trimEnd (c :: l) = c :: b :: r := by rw [trimEnd_cons, h]
      rw [h2]
      have h3 : trimEnd (b :: r) = b :: r := by rw [← h, ih, h]
      rw [trimEnd_cons, h3]

theorem trimEnd_head? (l : List Nat) :
    trimEnd l = [] ∨ (trimEnd l).head? = l.head? := by
  cases l with
  | nil => exact Or.inl rfl
  | cons c l =>
    cases h : trimEnd l with
    | nil =>
      by_cases hc : isSpaceCU c
      · exact Or.inl (by simp [trimEnd, h, hc])
      · exact Or.inr (by simp [trimEnd, h, hc])
    | cons b r => exact Or.inr (by simp [trimEnd, h])

theorem dropWhile_head_not {p : Nat → Bool} {l : List Nat} {c : Nat}
    (h : (l.dropWhile p).head? = some c) : p c = false := by
  induction l with
  | nil => simp at h
  | cons a l ih =>
    by_cases ha : p a
    · rw [List.dropWhile_cons_of_pos ha] at h
      exact ih h
    · rw [List.dropWhile_cons_of_neg ha] at h
      simp at h
      subst h
      simpa using ha

theorem dropWhile_trimEnd_dropWhile (p : Nat → Bool) (l : List Nat) :
    (trimEnd (l.dropWhile p)).dropWhile p = trimEnd (l.dropWhile p) := by
  rcases trimEnd_head? (l.dropWhile p) with h | h
  · simp [h]
  · cases ht : trimEnd (l.dropWhile p) with
    | nil => rfl
    | cons c t =>
      have hc : p c = false := by
        apply dropWhile_head_not (p := p) (l := l)
        rw [← h, ht]
        rfl
      simp [List.dropWhile_cons, hc]

theorem trimJS_trimJS (l : List Nat) : trimJS (trimJS l) = trimJS l := by
  unfold trimJS
  rw [dropWhile_trimEnd_dropWhile, trimEnd_trimEnd]

/-! ### C2: idempotence of `cleanTitle` -/

theorem cleanTitle_of_clean {z : List Nat} (h60 : 60 ∉ z) (h38 : 38 ∉ z) :
    cleanTitle z = trimJS z := by
  unfold cleanTitle
  rw [stripTags_id h60, numRef_id h38, replaceCI_id h38, replaceCI_id h38,
    replaceCI_id h38, replaceCI_id h38, replaceCI_id h38, replaceCI_id h38,
    dropEntities_id h38]

/-- C2 (counterexample): `cleanTitle` is not idempotent.  On the title
`"&lt;x&gt;"` one pass yields `"<x>"`; the second pass strips it as a markup
tag, yielding `""`. -/
theorem cleanTitle_not_idempotent :
    cleanTitle (cleanTitle (jstr "&lt;x&gt;")) ≠ cleanTitle (jstr "&lt;x&gt;") := by
  decide

/-- C2 (amended): `cleanTitle` is idempotent on every input whose cleaned
form contains neither `<` (code unit 60) nor `&` (code unit 38); entity
decoding can re-introduce those two code units, and they are the only way a
second pass can differ. -/
theorem cleanTitle_idem_of_clean_output (x : List Nat)
    (h60 : 60 ∉ cleanTitle x) (h38 : 38 ∉ cleanTitle x) :
    cleanTitle (cleanTitle x) = cleanTitle x := by
  rw [cleanTitle_of_clean h60 h38]
  show trimJS (cleanTitle x) = cleanTitle x
  unfold cleanTitle
  exact trimJS_trimJS _

/-- C2 witness: the amended idempotence theorem applied to the concrete
title `" Great Movie "`. -/
theorem cleanTitle_idem_witness :
    (60 ∉ cleanTitle (jstr " Great Movie ") ∧ 38 ∉ cleanTitle (jstr " Great Movie ")) ∧
      cleanTitle (cleanTitle (jstr " Great Movie ")) = cleanTitle (jstr " Great Movie ") :=
  ⟨⟨by decide, by decide⟩,
    cleanTitle_idem_of_clean_output (jstr " Great Movie ") (by decide) (by decide)⟩

/-! ### Dynamic values and `safeClassList` (Normalizer boundary)

The remote `class_list` field is loosely typed: it may be absent, an array,
or a map-like object.  `Dyn` models a JavaScript runtime value as far as
`safeClassList` can observe it. -/

inductive Dyn where
  | undef
  | nullv
  | boolv (b : Bool)
  | numv (n : Int)
  | strv (s : List Nat)
  | arrv (l : List Dyn)
  | objv (kvs : List (List Nat × Dyn))

/-- JavaScript falsiness (`!cl`).  `NaN` and `-0` are not modelled. -/
def Dyn.falsy : Dyn → Bool
  | .undef => true
  | .nullv => true
  | .boolv b => !b
  | .numv n => n == 0
  | .strv s => s.isEmpty
  | _ => false

/-- Embedding of `typeof v === "string"`. -/
def Dyn.isStr : Dyn → Bool
  | .strv _ => true
  | _ => false

/-- Embedding of `safeClassList` of `apiUtils.ts`, on the raw field value: falsy → `[]`;
array → returned as-is; object → `Object.values` filtered to strings
(insertion-order keys; the integer-key reordering of `Object.values` is not
modelled since it does not affect which values survive); anything else →
`[]`. -/
def safeClassListDyn (cl : Dyn) : List Dyn :=
  if cl.falsy then []
  else
    match cl with
    | .arrv l => l
    | .objv kvs => (kvs.map Prod.snd).filter Dyn.isStr
    | _ => []

/-- C8 (counterexample): in the array shape, malformed (non-string) entries
are NOT dropped — the array is returned as-is, so a numeric entry survives. -/
theorem safeClassList_array_keeps_malformed :
    (safeClassListDyn (Dyn.arrv [Dyn.strv (jstr "movies"), Dyn.numv 5])).all Dyn.isStr
      = false := by
  rfl

/-- C8 (amended): tag extraction is total and shape-tolerant — absence
(undefined/null) yields `[]`, an array yields exactly its elements (including
any malformed ones), a map-like object yields its values with non-string
entries silently dropped, and every scalar shape yields `[]`. -/
theorem safeClassList_shapes (l : List Dyn) (kvs : List (List Nat × Dyn))
    (b : Bool) (n : Int) (s : List Nat) :
    safeClassListDyn Dyn.undef = [] ∧
    safeClassListDyn Dyn.nullv = [] ∧
    safeClassListDyn (Dyn.arrv l) = l ∧
    safeClassListDyn (Dyn.objv kvs) = (kvs.map Prod.snd).filter Dyn.isStr ∧
    (safeClassListDyn (Dyn.objv kvs)).all Dyn.isStr = true ∧
    safeClassListDyn (Dyn.boolv b) = [] ∧
    safeClassListDyn (Dyn.numv n) = [] ∧
    safeClassListDyn (Dyn.strv s) = [] := by
  refine ⟨rfl, rfl, rfl, rfl, ?_, ?_, ?_, ?_⟩
  · show ((kvs.map Prod.snd).filter Dyn.isStr).all Dyn.isStr = true
    rw [List.all_eq_true]
    intro x hx
    exact (List.mem_filter.mp hx).2
  · cases b <;> rfl
  · unfold safeClassListDyn
    split <;> rfl
  · unfold safeClassListDyn
    split <;> rfl

/-! ### Posts and the classifier -/

/-- A well-typed remote post (`WPPost` of `apiUtils.ts`).  `title` is
`title.rendered`; `link`, `modified` and the embedded media are omitted:
no claim observes them.  `class_list` is the typed view (an array of
strings); `safeClassList` returns such an array unchanged
(`safeClassList_agrees`). -/
structure WPPost where
  id : Nat
  title : List Nat
  date : List Nat
  categories : List Nat
  class_list : List (List Nat)
deriving DecidableEq

def safeClassList (p : WPPost) : List (List Nat) := p.class_list

/-- On an array of strings the dynamic `safeClassList` is the identity, which
justifies the typed shortcut above. -/
theorem safeClassList_agrees (p : WPPost) :
    safeClassListDyn (Dyn.arrv (p.class_list.map Dyn.strv)) =
      p.class_list.map Dyn.strv := rfl

/-- Embedding of `getClass(post, prefix)`: first class of the form `prefix-value` whose
value is nonempty and (except for the `series` family) purely numeric;
returns the value part.  (`if (!found)` coincides with the `none` test since
a found value has positive length.) -/
def getClass (p : WPPost) (pre : List Nat) : Option (List Nat) :=
  match (safeClassList p).find? (fun x =>
      (pre ++ [45]).isPrefixOf x && decide (pre.length + 1 < x.length) &&
      (pre == jstr "series" || (x.drop (pre.length + 1)).all isDigitCU)) with
  | some found => some (found.drop (pre.length + 1))
  | none => none

/-- Embedding of `hasClasses(post, ...classes)`. -/
def hasClasses (p : WPPost) (classes : List (List Nat)) : Bool :=
  classes.all (fun c => (safeClassList p).contains c)

/-- The fixed seed of the (append-only) `KNOWN_SERIES_CAT_IDS` registry. -/
def KNOWN_SERIES_CAT_IDS : List Nat := [35307]

/-! #### `EPISODE_TITLE_RE`
`/الحلقة|مشاهدة حلقة|حلقه|\bep\.?\s*\d|\bepisode\s*\d|s\d{1,2}e\d{1,2}/i`,
embedded alternative by alternative; `test` is an existential over start
positions, scanned left to right with the previous code unit tracked for
`\b`. -/

/-- Embedding of `\s*\d` (greedy; `\s` and `\d` are disjoint, so no backtracking). -/
def spacesThenDigit : List Nat → Bool
  | [] => false
  | c :: rest => if isSpaceCU c then spacesThenDigit rest else isDigitCU c

/-- Embedding of `\.?\s*\d` (an unconsumed `.` can never satisfy `\s*\d`, so the optional
dot is taken exactly when present). -/
def dotSpacesDigit (l : List Nat) : Bool :=
  match l with
  | 46 :: rest => spacesThenDigit rest
  | _ => spacesThenDigit l

/-- Embedding of `e\d` — the tail of `s\d{1,2}e\d{1,2}` (a trailing `\d{1,2}` only needs
its first digit). -/
def eThenDigit : List Nat → Bool
  | e :: d :: _ => lowCU e == 101 && isDigitCU d
  | _ => false

/-- Embedding of `\d{1,2}e\d{1,2}` after the leading `s`, with the `{1,2}` backtracking
unfolded into the two-digit and one-digit disjuncts. -/
def sEpCode : List Nat → Bool
  | d1 :: rest =>
    isDigitCU d1 &&
      (match rest with
       | d2 :: rest2 => (isDigitCU d2 && eThenDigit rest2) || eThenDigit rest
       | [] => false)
  | [] => false

/-- One attempt of `EPISODE_TITLE_RE` at a fixed position; `prevWord` is
whether the preceding code unit is a word character (`\b` before `e`). -/
def epAlt (prevWord : Bool) (l : List Nat) : Bool :=
  (stripLitCI (jstr "الحلقة") l).isSome ||
  (stripLitCI (jstr "مشاهدة حلقة") l).isSome ||
  (stripLitCI (jstr "حلقه") l).isSome ||
  (!prevWord &&
    (match stripLitCI (jstr "ep") l with
     | some rest => dotSpacesDigit rest
     | none => false)) ||
  (!prevWord &&
    (match stripLitCI (jstr "episode") l with
     | some rest => spacesThenDigit rest
     | none => false)) ||
  (match l with
   | s :: rest => lowCU s == 115 && sEpCode rest
   | [] => false)

def epScan : Bool → List Nat → Bool
  | _, [] => false
  | prevWord, c :: rest => epAlt prevWord (c :: rest) || epScan (isWordCU c) rest

/-- Embedding of `EPISODE_TITLE_RE.test(s)`. -/
def episodeTitleTest (l : List Nat) : Bool := epScan false l

/-- Embedding of `/^series-\d+$/.test c`. -/
def seriesNumericTag (c : List Nat) : Bool :=
  (jstr "series-").isPrefixOf c && !(c.drop 7).isEmpty && (c.drop 7).all isDigitCU

/-- Embedding of `isSeries` of `apiUtils.ts`: a non-numeric `series-` class, otherwise the
episode-title pattern on the cleaned title.  (No third tier exists in the
code.) -/
def isSeries (p : WPPost) : Bool :=
  if (safeClassList p).any
      (fun c => (jstr "series-").isPrefixOf c && !seriesNumericTag c) then true
  else episodeTitleTest (cleanTitle p.title)

def isMovie (p : WPPost) : Bool := !isSeries p

example : episodeTitleTest (jstr "S01E02") = true := by decide
example : episodeTitleTest (jstr "Best Movie 2024") = false := by decide
example : episodeTitleTest (jstr "episode 5") = true := by decide
example : episodeTitleTest (jstr "dep 5") = false := by decide
example : episodeTitleTest (jstr "الحلقة 3") = true := by decide
example :
    isSeries
      { id := 1, title := jstr "Movie", date := [], categories := [],
        class_list := [jstr "series-romance"] } = true := by decide
example :
    isSeries
      { id := 1, title := jstr "Movie", date := [], categories := [],
        class_list := [jstr "series-123"] } = false := by decide

/-- A post with no series class, a clean non-episode title, and a category id
(35307) that is in the known-series registry. -/
def c1Post : WPPost :=
  { id := 1, title := jstr "Great Movie", date := [], categories := [35307],
    class_list := [] }

/-- C1: the code has no category-id fallback tier.  For `c1Post` the first
two tiers do not fire and 35307 is in `KNOWN_SERIES_CAT_IDS`, yet `isSeries`
returns `false`, contradicting the documented third tier. -/
theorem isSeries_ignores_category_fallback :
    (safeClassList c1Post).any
        (fun c => (jstr "series-").isPrefixOf c && !seriesNumericTag c) = false ∧
    episodeTitleTest (cleanTitle c1Post.title) = false ∧
    c1Post.categories.any (fun cid => KNOWN_SERIES_CAT_IDS.contains cid) = true ∧
    isSeries c1Post = false := by
  refine ⟨rfl, by decide, rfl, by decide⟩

/-- C6: `isMovie` is the boolean complement of `isSeries`; every post is
classified as exactly one of the two. -/
theorem isMovie_complement (p : WPPost) :
    isMovie p = !isSeries p ∧
      ((isSeries p = true ∧ isMovie p = false) ∨
        (isSeries p = false ∧ isMovie p = true)) := by
  cases h : isSeries p <;> simp [isMovie, h]

/-! ### Grouping maps and the stable sort

A `Map<string, T[]>` built by `if (!map.has(k)) map.set(k, []); map.get(k)!.push(v)`
iterates in key-insertion order with values in push order: an association
list with `addToGroup`.  `Array.prototype.sort((a, b) => w(b) - w(a))` is the
unique stable descending-by-`w` permutation: `sortDescBy`. -/

def addToGroup {β : Type} (m : List (List Nat × List β)) (k : List Nat) (v : β) :
    List (List Nat × List β) :=
  match m with
  | [] => [(k, [v])]
  | (k', vs) :: rest =>
    if k' = k then (k', vs ++ [v]) :: rest else (k', vs) :: addToGroup rest k v

def groupByKey (keyOf : WPPost → Option (List Nat)) (posts : List WPPost) :
    List (List Nat × List WPPost) :=
  posts.foldl
    (fun m p =>
      match keyOf p with
      | none => m
      | some k => addToGroup m k p)
    []

def findV {β : Type} (k : List Nat) : List (List Nat × β) → Option β
  | [] => none
  | (k', v) :: m => if k' = k then some v else findV k m

def insertByW {α : Type} (w : α → Nat) (a : α) : List α → List α
  | [] => [a]
  | b :: l => if w a < w b then b :: insertByW w a l else a :: b :: l

def sortDescBy {α : Type} (w : α → Nat) : List α → List α
  | [] => []
  | a :: l => insertByW w a (sortDescBy w l)

/-! ### Section builders -/

structure DynamicSection where
  key : List Nat
  label : List Nat
  emoji : List Nat
  posts : List WPPost
deriving DecidableEq

structure Meta where
  label : List Nat
  emoji : List Nat
deriving DecidableEq

/-- The static `COUNTRY_META` table. -/
def COUNTRY_META (id : List Nat) : Option Meta :=
  if id = jstr "16328" then some ⟨jstr "تركية", jstr "🇹🇷"⟩
  else if id = jstr "1" then some ⟨jstr "عربية", jstr "🌍"⟩
  else if id = jstr "649" then some ⟨jstr "هندية", jstr "🇮🇳"⟩
  else if id = jstr "35219" then some ⟨jstr "أجنبية", jstr "🌐"⟩
  else none

/-- The static `LANG_META` table; ids `"595"` and `"34"` share one label. -/
def LANG_META (id : List Nat) : Option Meta :=
  if id = jstr "606" then some ⟨jstr "مدبلجة", jstr "🎙️"⟩
  else if id = jstr "595" then some ⟨jstr "مترجمة", jstr "📝"⟩
  else if id = jstr "34" then some ⟨jstr "مترجمة", jstr "📝"⟩
  else none

/-- Embedding of `buildCountrySections`: group by the `country-` class value, keep groups
of ≥ 2, stable-sort by descending size, cap at 10, label via `COUNTRY_META`
with a generic fallback. -/
def mkCountrySection (e : List Nat × List WPPost) : DynamicSection :=
  match COUNTRY_META e.1 with
  | some meta =>
    { key := jstr "country-" ++ e.1, label := meta.label,
      emoji := meta.emoji, posts := e.2.take 10 }
  | none =>
    { key := jstr "country-" ++ e.1, label := jstr "بلد #" ++ e.1,
      emoji := jstr "🌐", posts := e.2.take 10 }

def buildCountrySections (posts : List WPPost) : List DynamicSection :=
  let m := groupByKey (fun p => getClass p (jstr "country")) posts
  (sortDescBy (fun e => e.2.length) (m.filter (fun e => 2 ≤ e.2.length))).map
    mkCountrySection

def mkLangSection (id : List Nat) (meta : Meta) (ps : List WPPost) :
    DynamicSection :=
  { key := jstr "lang-" ++ id, label := meta.label, emoji := meta.emoji,
    posts := ps.take 10 }

/-- The `for (const [id, ps] of map)` loop of `buildLanguageSections` with
its seen-labels set. -/
def buildLanguageSectionsGo (seen : List (List Nat)) :
    List (List Nat × List WPPost) → List DynamicSection
  | [] => []
  | (id, ps) :: rest =>
    if ps.length < 2 then buildLanguageSectionsGo seen rest
    else
      match LANG_META id with
      | none => buildLanguageSectionsGo seen rest
      | some meta =>
        if meta.label ∈ seen then buildLanguageSectionsGo seen rest
        else mkLangSection id meta ps :: buildLanguageSectionsGo (meta.label :: seen) rest

def buildLanguageSections (posts : List WPPost) : List DynamicSection :=
  buildLanguageSectionsGo [] (groupByKey (fun p => getClass p (jstr "language")) posts)

structure Combo where
  key : List Nat
  label : List Nat
  emoji : List Nat
  country : List Nat
  language : List Nat
deriving DecidableEq

/-- The fixed cross-filter combination list of `buildCrossFilterSections`. -/
def crossCombos : List Combo :=
  [{ key := jstr "tr-dub", label := jstr "تركية مدبلجة", emoji := jstr "🇹🇷🎙️",
     country := jstr "16328", language := jstr "606" },
   { key := jstr "tr-sub", label := jstr "تركية مترجمة", emoji := jstr "🇹🇷📝",
     country := jstr "16328", language := jstr "595" }]

def crossPosts (posts : List WPPost) (c : Combo) : List WPPost :=
  posts.filter (fun p =>
    hasClasses p [jstr "country-" ++ c.country, jstr "language-" ++ c.language])

def mkCrossSection (posts : List WPPost) (c : Combo) : DynamicSection :=
  { key := c.key, label := c.label, emoji := c.emoji,
    posts := (crossPosts posts c).take 10 }

def buildCrossFilterSections (posts : List WPPost) : List DynamicSection :=
  (crossCombos.map (mkCrossSection posts)).filter (fun s => 2 ≤ s.posts.length)

/-! ### Year sections -/

/-- Embedding of `yearCounts.set(y, (yearCounts.get(y) ?? 0) + 1)`: bump in place,
append new keys. -/
def bumpCount (m : List (List Nat × Nat)) (y : List Nat) : List (List Nat × Nat) :=
  match m with
  | [] => [(y, 1)]
  | (k, c) :: rest => if k = y then (k, c + 1) :: rest else (k, c) :: bumpCount rest y

def yearCounts (ys : List (List Nat)) : List (List Nat × Nat) := ys.foldl bumpCount []

/-- Embedding of `[...yearCounts.entries()].sort((a, b) => b[1] - a[1])[0][0]` — head of
the stable descending-by-count sort (callers guarantee nonemptiness). -/
def chosenYear (yc : List (List Nat × Nat)) : List Nat :=
  match (sortDescBy Prod.snd yc).head? with
  | some e => e.1
  | none => []

/-- Embedding of `/^release-year-\d+$/.test c`. -/
def isReleaseYearTag (c : List Nat) : Bool :=
  (jstr "release-year-").isPrefixOf c && !(c.drop 13).isEmpty &&
    (c.drop 13).all isDigitCU

def yearLabel (currentYear y : List Nat) : List Nat :=
  if y = currentYear then jstr "إصدارات " ++ y else jstr "أفلام " ++ y

/-- Embedding of `parseInt(label.match(/\d{4}/)?.[0] ?? "0")`: the value of the leftmost
run of four digits, else 0. -/
def extractYear4 : List Nat → Nat
  | c1 :: c2 :: c3 :: c4 :: rest =>
    if isDigitCU c1 && isDigitCU c2 && isDigitCU c3 && isDigitCU c4 then
      (c1 - 48) * 1000 + (c2 - 48) * 100 + (c3 - 48) * 10 + (c4 - 48)
    else extractYear4 (c2 :: c3 :: c4 :: rest)
  | _ => 0

/-- Embedding of `buildYearSections`.  `yearOf` abstracts
`d => new Date(d).getFullYear().toString()` and `currentYear` abstracts
`new Date().getFullYear().toString()`: both depend on the runtime
environment (date parser, clock), which a shallow embedding leaves as
parameters. -/
def buildYearSections (yearOf : List Nat → List Nat) (currentYear : List Nat)
    (posts : List WPPost) : List DynamicSection :=
  let m := groupByKey (fun p => (safeClassList p).find? isReleaseYearTag) posts
  let secs := m.filterMap (fun e =>
    if e.2.length < 2 then none
    else
      let y := chosenYear (yearCounts (e.2.map (fun p => yearOf p.date)))
      some { key := jstr "year-" ++ e.1,
             label := yearLabel currentYear y,
             emoji := if y = currentYear then jstr "📅" else jstr "🗓️",
             posts := e.2.take 10 })
  sortDescBy (fun s => extractYear4 s.label) secs

/-! ### Deduplication -/

/-- Embedding of `s.posts.filter(p => { if (seen.has(p.id)) return false; seen.add(p.id);
return true; })` — the filter callback mutates the shared seen set. -/
def filterSeen (seen : List Nat) : List WPPost → List WPPost × List Nat
  | [] => ([], seen)
  | p :: ps =>
    if p.id ∈ seen then filterSeen seen ps
    else
      let r := filterSeen (p.id :: seen) ps
      (p :: r.1, r.2)

/-- The `.map` pass of `deduplicateSections`, threading the seen set. -/
def dedupGo (seen : List Nat) : List DynamicSection → List DynamicSection
  | [] => []
  | s :: rest =>
    let r := filterSeen seen s.posts
    { s with posts := r.1 } :: dedupGo r.2 rest

def deduplicateSections (sections : List DynamicSection) : List DynamicSection :=
  (dedupGo [] sections).filter (fun s => decide (0 < s.posts.length))

/-! ### Transport: `fetchCategories` -/

structure WPCategory where
  id : Nat
  name : List Nat
  count : Nat
  slug : List Nat
deriving DecidableEq

/-- Embedding of `fetchCategories`, with the network abstracted: `firstPage` is the data
of the page-1 response, `totalPages` the parsed `x-wp-totalpages` header of
that response, and `pageData i` the data of the response for `page=i`.  When
`totalPages > 1` the code requests every page from 2 to `totalPages` and
concatenates — there is no cap. -/
def fetchCategoriesModel (firstPage : List WPCategory) (totalPages : Nat)
    (pageData : Nat → List WPCategory) : List WPCategory :=
  if totalPages ≤ 1 then firstPage
  else firstPage ++ ((List.range (totalPages - 1)).map (fun i => pageData (i + 2))).flatten

/-- Number of HTTP requests `fetchCategories` issues for a given
`x-wp-totalpages` header value. -/
def fetchCategoriesRequests (totalPages : Nat) : Nat :=
  if totalPages ≤ 1 then 1 else 1 + (totalPages - 1)

/-! ### Paginator: `loadNextPage` of `list.tsx`

React queues state-updater functions and applies them in call order, each
seeing the previous one's result; `loadNextPage` runs its guard inside the
updater.  `loadNextStart` is that synchronous updater: it returns the new
stored state for the tab plus the page number of the fetch it kicked off
(`none` when the guard suppressed the call).  `loadNextResolve` is the
updater run when the fetch resolves, with `captured` the state the guard
captured at start time. -/

structure TabState where
  posts : List WPPost
  page : Nat
  hasMore : Bool
  total : Nat
  loading : Bool

def loadNextStart (st : Option TabState) : Option TabState × Option Nat :=
  match st with
  | none => (none, none)
  | some s =>
    if s.loading || !s.hasMore then (some s, none)
    else (some { s with loading := true }, some (s.page + 1))

def loadNextResolve (captured : TabState) (newPosts : List WPPost)
    (hasMore : Bool) (total : Nat) (cur : Option TabState) : TabState :=
  let existingIds := captured.posts.map WPPost.id
  let fresh := newPosts.filter (fun p => !existingIds.contains p.id)
  { posts := (match cur with | some c => c.posts | none => []) ++ fresh,
    page := captured.page + 1, hasMore := hasMore, total := total,
    loading := false }

/-- C9: a `loadNext` issued while a previous one for the same tab is in
flight is a no-op.  From a non-loading state with more pages, the first
updater issues the fetch for `page + 1` and sets `loading`; a second call
before resolution changes nothing and issues no fetch; resolving the single
fetch advances the page counter by exactly one. -/
theorem loadNext_inflight_suppressed (s : TabState) (newPosts : List WPPost)
    (hm : Bool) (tot : Nat)
    (hload : s.loading = false) (hmore : s.hasMore = true) :
    (loadNextStart (some s)).2 = some (s.page + 1) ∧
    (loadNextStart (loadNextStart (some s)).1).2 = none ∧
    (loadNextStart (loadNextStart (some s)).1).1 = (loadNextStart (some s)).1 ∧
    (loadNextResolve s newPosts hm tot
        (loadNextStart (loadNextStart (some s)).1).1).page = s.page + 1 := by
  simp [loadNextStart, hload, hmore, loadNextResolve]

/-- C9 witness: the suppression theorem at a concrete idle tab state. -/
def idleTab : TabState :=
  { posts := [], page := 3, hasMore := true, total := 40, loading := false }

theorem loadNext_inflight_suppressed_witness :
    (loadNextStart (some idleTab)).2 = some 4 ∧
    (loadNextStart (loadNextStart (some idleTab)).1).2 = none ∧
    (loadNextStart (loadNextStart (some idleTab)).1).1 =
      (loadNextStart (some idleTab)).1 ∧
    (loadNextResolve idleTab [] true 40
        (loadNextStart (loadNextStart (some idleTab)).1).1).page = 4 :=
  loadNext_inflight_suppressed idleTab [] true 40 rfl rfl

def dummyCat : WPCategory := { id := 0, name := [], count := 0, slug := [] }

theorem fetchCategoriesModel_const_length (tp : Nat) (h : 2 ≤ tp) :
    (fetchCategoriesModel (List.replicate 100 dummyCat) tp
        (fun _ => List.replicate 100 dummyCat)).length = 100 * tp := by
  unfold fetchCategoriesModel
  rw [if_neg (by omega)]
  simp only [List.length_append, List.length_replicate, List.length_flatten,
    List.map_map]
  have : ((List.range (tp - 1)).map
      ((fun l => List.length l) ∘ fun _ => List.replicate 100 dummyCat)) =
      List.replicate (tp - 1) 100 := by
    rw [List.eq_replicate_iff]
    simp
  rw [this, List.sum_replicate]
  simp
  omega

/-- C3: `fetchCategories` is NOT capped at ~200 records or a bounded page
count: when the first response reports 3 total pages of 100 categories each,
it issues 3 requests and returns 300 records, and in general the record
count grows without bound with the reported page count (contradicting the
file's own fix note 7, "fetches up to 200 categories"). -/
theorem fetchCategories_unbounded :
    (fetchCategoriesModel (List.replicate 100 dummyCat) 3
        (fun _ => List.replicate 100 dummyCat)).length = 300 ∧
    fetchCategoriesRequests 3 = 3 ∧
    ∀ B : Nat, ∃ tp : Nat,
      B < (fetchCategoriesModel (List.replicate 100 dummyCat) tp
          (fun _ => List.replicate 100 dummyCat)).length := by
  refine ⟨?_, rfl, ?_⟩
  · rw [fetchCategoriesModel_const_length 3 (by omega)]
  · intro B
    refine ⟨B + 2, ?_⟩
    rw [fetchCategoriesModel_const_length (B + 2) (by omega)]
    omega

/-! ### C4 lemmas: `filterSeen` and `dedupGo` -/

theorem filterSeen_mem_kept (pid : Nat) :
    ∀ (ps : List WPPost) (seen : List Nat),
      (pid ∈ (filterSeen seen ps).1.map WPPost.id ↔
        pid ∉ seen ∧ pid ∈ ps.map WPPost.id) := by
  intro ps
  induction ps with
  | nil => intro seen; simp [filterSeen]
  | cons p ps ih =>
    intro seen
    by_cases hp : p.id ∈ seen
    · rw [show filterSeen seen (p :: ps) = filterSeen seen ps by
        simp [filterSeen, hp]]
      rw [ih seen]
      simp only [List.map_cons, List.mem_cons]
      constructor
      · rintro ⟨h1, h2⟩; exact ⟨h1, Or.inr h2⟩
      · rintro ⟨h1, h2 | h2⟩
        · exact absurd (h2 ▸ hp) h1
        · exact ⟨h1, h2⟩
    · rw [show filterSeen seen (p :: ps) =
          (p :: (filterSeen (p.id :: seen) ps).1, (filterSeen (p.id :: seen) ps).2) by
        simp [filterSeen, hp]]
      simp only [List.map_cons, List.mem_cons]
      rw [ih (p.id :: seen)]
      simp only [List.mem_cons]
      constructor
      · rintro (h | ⟨h1, h2⟩)
        · exact ⟨h ▸ hp, Or.inl h⟩
        · exact ⟨fun hs => h1 (Or.inr hs), Or.inr h2⟩
      · rintro ⟨h1, h2 | h2⟩
        · exact Or.inl h2
        · by_cases he : pid = p.id
          · exact Or.inl he
          · exact Or.inr ⟨fun hs => (hs.elim he h1), h2⟩

theorem filterSeen_mem_seen (pid : Nat) :
    ∀ (ps : List WPPost) (seen : List Nat),
      (pid ∈ (filterSeen seen ps).2 ↔ pid ∈ seen ∨ pid ∈ ps.map WPPost.id) := by
  intro ps
  induction ps with
  | nil => intro seen; simp [filterSeen]
  | cons p ps ih =>
    intro seen
    by_cases hp : p.id ∈ seen
    · rw [show filterSeen seen (p :: ps) = filterSeen seen ps by
        simp [filterSeen, hp]]
      rw [ih seen]
      simp only [List.map_cons, List.mem_cons]
      constructor
      · rintro (h | h)
        · exact Or.inl h
        · exact Or.inr (Or.inr h)
      · rintro (h | h | h)
        · exact Or.inl h
        · exact Or.inl (h ▸ hp)
        · exact Or.inr h
    · rw [show (filterSeen seen (p :: ps)).2 = (filterSeen (p.id :: seen) ps).2 by
        simp [filterSeen, hp]]
      rw [ih (p.id :: seen)]
      simp only [List.mem_cons, List.map_cons]
      tauto

theorem dedupGo_length : ∀ (ss : List DynamicSection) (seen : List Nat),
    (dedupGo seen ss).length = ss.length := by
  intro ss
  induction ss with
  | nil => intro seen; rfl
  | cons s ss ih => intro seen; simp [dedupGo, ih]

theorem dedupGo_not_mem_of_seen (pid : Nat) :
    ∀ (ss : List DynamicSection) (seen : List Nat), pid ∈ seen →
      ∀ (j : Nat) (hj : j < (dedupGo seen ss).length),
        pid ∉ ((dedupGo seen ss).get ⟨j, hj⟩).posts.map WPPost.id := by
  intro ss
  induction ss with
  | nil => intro seen _ j hj; simp [dedupGo] at hj
  | cons s ss ih =>
    intro seen hseen j hj
    cases j with
    | zero =>
      show pid ∉ (filterSeen seen s.posts).1.map WPPost.id
      rw [filterSeen_mem_kept]
      rintro ⟨h1, _⟩
      exact h1 hseen
    | succ j' =>
      have hj' : j' < (dedupGo (filterSeen seen s.posts).2 ss).length := by
        simpa [dedupGo] using hj
      exact ih _ ((filterSeen_mem_seen pid s.posts seen).mpr (Or.inl hseen)) j' hj'

theorem dedupGo_mem_of_mem (pid : Nat) :
    ∀ (ss : List DynamicSection) (seen : List Nat) (j : Nat)
      (hj : j < (dedupGo seen ss).length) (hj2 : j < ss.length),
      pid ∈ ((dedupGo seen ss).get ⟨j, hj⟩).posts.map WPPost.id →
      pid ∈ (ss.get ⟨j, hj2⟩).posts.map WPPost.id := by
  intro ss
  induction ss with
  | nil => intro seen j hj _; simp [dedupGo] at hj
  | cons s ss ih =>
    intro seen j hj hj2 hmem
    cases j with
    | zero =>
      have : pid ∈ (filterSeen seen s.posts).1.map WPPost.id := hmem
      exact ((filterSeen_mem_kept pid s.posts seen).mp this).2
    | succ j' =>
      have hj' : j' < (dedupGo (filterSeen seen s.posts).2 ss).length := by
        simpa [dedupGo] using hj
      exact ih _ j' hj' (Nat.lt_of_succ_lt_succ hj2) hmem

theorem dedupGo_keeps_first (pid : Nat) :
    ∀ (ss : List DynamicSection) (seen : List Nat) (i : Nat)
      (hi : i < ss.length) (hi2 : i < (dedupGo seen ss).length),
      pid ∉ seen →
      pid ∈ (ss.get ⟨i, hi⟩).posts.map WPPost.id →
      (∀ k (hk : k < i), pid ∉ (ss.get ⟨k, Nat.lt_trans hk hi⟩).posts.map WPPost.id) →
      pid ∈ ((dedupGo seen ss).get ⟨i, hi2⟩).posts.map WPPost.id ∧
        ∀ j (hj : j < (dedupGo seen ss).length), i < j →
          pid ∉ ((dedupGo seen ss).get ⟨j, hj⟩).posts.map WPPost.id := by
  intro ss
  induction ss with
  | nil => intro seen i hi; simp at hi
  | cons s ss ih =>
    intro seen i hi hi2 hseen hmem hfirst
    cases i with
    | zero =>
      constructor
      · show pid ∈ (filterSeen seen s.posts).1.map WPPost.id
        exact (filterSeen_mem_kept pid s.posts seen).mpr ⟨hseen, hmem⟩
      · intro j hj hlt
        cases j with
        | zero => omega
        | succ j' =>
          have hj' : j' < (dedupGo (filterSeen seen s.posts).2 ss).length := by
            simpa [dedupGo] using hj
          exact dedupGo_not_mem_of_seen pid ss _
            ((filterSeen_mem_seen pid s.posts seen).mpr (Or.inr hmem)) j' hj'
    | succ i' =>
      have hnot0 : pid ∉ s.posts.map WPPost.id := by
        have := hfirst 0 (Nat.succ_pos i')
        simpa using this
      have hseen2 : pid ∉ (filterSeen seen s.posts).2 := by
        rw [filterSeen_mem_seen]
        rintro (h | h)
        · exact hseen h
        · exact hnot0 h
      have hi' : i' < ss.length := Nat.lt_of_succ_lt_succ hi
      have hi2' : i' < (dedupGo (filterSeen seen s.posts).2 ss).length := by
        simpa [dedupGo] using hi2
      have hfirst' : ∀ k (hk : k < i'),
          pid ∉ (ss.get ⟨k, Nat.lt_trans hk hi'⟩).posts.map WPPost.id := by
        intro k hk
        have := hfirst (k + 1) (Nat.succ_lt_succ hk)
        simpa using this
      have hmem' : pid ∈ (ss.get ⟨i', hi'⟩).posts.map WPPost.id := by
        simpa using hmem
      obtain ⟨h1, h2⟩ := ih _ i' hi' hi2' hseen2 hmem' hfirst'
      constructor
      · simpa [dedupGo] using h1
      · intro j hj hlt
        cases j with
        | zero => omega
        | succ j' =>
          have hj' : j' < (dedupGo (filterSeen seen s.posts).2 ss).length := by
            simpa [dedupGo] using hj
          have := h2 j' hj' (Nat.lt_of_succ_lt_succ hlt)
          simpa [dedupGo] using this

/-- C4: `deduplicateSections` keeps a post id only in the first section (in
input order) where it occurs: the deduplicated form of that section still
contains the id, every other section's deduplicated form does not, the
surviving section is in the output, and every output section is nonempty
(sections emptied by deduplication are dropped). -/
theorem deduplicateSections_first_wins (ss : List DynamicSection) (pid : Nat)
    (i : Nat) (hi : i < ss.length) (hi2 : i < (dedupGo [] ss).length)
    (hmem : pid ∈ (ss.get ⟨i, hi⟩).posts.map WPPost.id)
    (hfirst : ∀ k (hk : k < i),
      pid ∉ (ss.get ⟨k, Nat.lt_trans hk hi⟩).posts.map WPPost.id) :
    pid ∈ ((dedupGo [] ss).get ⟨i, hi2⟩).posts.map WPPost.id ∧
    (∀ j (hj : j < (dedupGo [] ss).length), j ≠ i →
      pid ∉ ((dedupGo [] ss).get ⟨j, hj⟩).posts.map WPPost.id) ∧
    (∃ s ∈ deduplicateSections ss, pid ∈ s.posts.map WPPost.id) ∧
    ∀ s ∈ deduplicateSections ss, s.posts ≠ [] := by
  obtain ⟨h1, h2⟩ := dedupGo_keeps_first pid ss [] i hi hi2
    (List.not_mem_nil pid) hmem hfirst
  refine ⟨h1, ?_, ?_, ?_⟩
  · intro j hj hne
    rcases Nat.lt_or_ge j i with hlt | hge
    · have hj2 : j < ss.length := by
        have := dedupGo_length ss []
        omega
      intro hin
      exact hfirst j hlt (dedupGo_mem_of_mem pid ss [] j hj hj2 hin)
    · have hgt : i < j := Nat.lt_of_le_of_ne hge (fun e => hne e.symm)
      exact h2 j hj hgt
  · refine ⟨(dedupGo [] ss).get ⟨i, hi2⟩, ?_, h1⟩
    unfold deduplicateSections
    rw [List.mem_filter]
    refine ⟨List.get_mem _ _ _, ?_⟩
    have : ((dedupGo [] ss).get ⟨i, hi2⟩).posts ≠ [] := by
      intro e
      rw [e] at h1
      simp at h1
    simp only [decide_eq_true_eq]
    exact List.length_pos.mpr this
  · intro s hs
    unfold deduplicateSections at hs
    rw [List.mem_filter] at hs
    have := hs.2
    simp only [decide_eq_true_eq] at this
    exact List.length_pos.mp this

def post42 : WPPost :=
  { id := 42, title := [], date := [], categories := [], class_list := [] }

def post7 : WPPost :=
  { id := 7, title := [], date := [], categories := [], class_list := [] }

def c4Sections : List DynamicSection :=
  [{ key := jstr "a", label := [], emoji := [], posts := [post42, post7] },
   { key := jstr "b", label := [], emoji := [], posts := [post42] }]

/-- C4 witness: id 42 appears in both sections of `c4Sections`; it is kept in
the first and stripped from the second. -/
theorem deduplicateSections_first_wins_witness :
    42 ∈ ((dedupGo [] c4Sections).get ⟨0, by decide⟩).posts.map WPPost.id ∧
    (∀ j (hj : j < (dedupGo [] c4Sections).length), j ≠ 0 →
      42 ∉ ((dedupGo [] c4Sections).get ⟨j, hj⟩).posts.map WPPost.id) ∧
    (∃ s ∈ deduplicateSections c4Sections, 42 ∈ s.posts.map WPPost.id) ∧
    ∀ s ∈ deduplicateSections c4Sections, s.posts ≠ [] :=
  deduplicateSections_first_wins c4Sections 42 0 (by decide) (by decide)
    (by decide) (fun k hk => absurd hk (Nat.not_lt_zero k))

/-! ### Lemmas about grouping maps and the stable sort -/

theorem findV_addToGroup_same {β : Type} (m : List (List Nat × List β))
    (k : List Nat) (v : β) :
    findV k (addToGroup m k v) = some ((findV k m).getD [] ++ [v]) := by
  induction m with
  | nil => simp [addToGroup, findV]
  | cons e rest ih =>
    obtain ⟨k', vs⟩ := e
    by_cases hk : k' = k
    · subst hk
      simp [addToGroup, findV]
    · simp [addToGroup, findV, hk, ih]

theorem findV_addToGroup_other {β : Type} (m : List (List Nat × List β))
    {k k' : List Nat} (v : β) (h : k' ≠ k) :
    findV k (addToGroup m k' v) = findV k m := by
  induction m with
  | nil => simp [addToGroup, findV, h]
  | cons e rest ih =>
    obtain ⟨k'', vs⟩ := e
    by_cases hk : k'' = k'
    · subst hk
      simp [addToGroup, findV, h]
    · simp [addToGroup, findV, hk, ih]

theorem findV_groupFold (keyOf : WPPost → Option (List Nat)) (k : List Nat) :
    ∀ (posts : List WPPost) (acc : List (List Nat × List WPPost)),
      findV k (posts.foldl
        (fun m p =>
          match keyOf p with
          | none => m
          | some k' => addToGroup m k' p) acc) =
      match findV k acc with
      | some vs => some (vs ++ posts.filter (fun p => decide (keyOf p = some k)))
      | none =>
        if posts.filter (fun p => decide (keyOf p = some k)) = [] then none
        else some (posts.filter (fun p => decide (keyOf p = some k))) := by
  intro posts
  induction posts with
  | nil =>
    intro acc
    cases h : findV k acc <;> simp [h]
  | cons p ps ih =>
    intro acc
    rw [List.foldl_cons]
    cases hkey : keyOf p with
    | none =>
      rw [ih acc]
      have hfilter : (p :: ps).filter (fun p => decide (keyOf p = some k)) =
          ps.filter (fun p => decide (keyOf p = some k)) := by
        simp [List.filter_cons, hkey]
      rw [hfilter]
    | some k' =>
      by_cases hk : k' = k
      · subst hk
        have hfilter : (p :: ps).filter (fun p => decide (keyOf p = some k')) =
            p :: ps.filter (fun p => decide (keyOf p = some k')) := by
          simp [List.filter_cons, hkey]
        rw [hfilter, ih (addToGroup acc k' p), findV_addToGroup_same]
        cases h : findV k' acc <;> simp [h]
      · have hfilter : (p :: ps).filter (fun p => decide (keyOf p = some k)) =
            ps.filter (fun p => decide (keyOf p = some k)) := by
          simp [List.filter_cons, hkey, hk]
        rw [ih (addToGroup acc k' p), findV_addToGroup_other acc p hk, hfilter]

/-- The group stored under key `k` is exactly the subsequence of posts whose
key is `k`, present iff that subsequence is nonempty. -/
theorem findV_groupByKey (keyOf : WPPost → Option (List Nat)) (k : List Nat)
    (posts : List WPPost) :
    findV k (groupByKey keyOf posts) =
      if posts.filter (fun p => decide (keyOf p = some k)) = [] then none
      else some (posts.filter (fun p => decide (keyOf p = some k))) := by
  unfold groupByKey
  rw [findV_groupFold keyOf k posts []]
  rfl

theorem keys_addToGroup {β : Type} (m : List (List Nat × List β)) (k : List Nat)
    (v : β) :
    (addToGroup m k v).map Prod.fst =
      if k ∈ m.map Prod.fst then m.map Prod.fst else m.map Prod.fst ++ [k] := by
  induction m with
  | nil => simp [addToGroup]
  | cons e rest ih =>
    obtain ⟨k', vs⟩ := e
    by_cases hk : k' = k
    · subst hk
      simp [addToGroup]
    · have hne : ¬(k = k') := fun e => hk e.symm
      simp only [addToGroup, if_neg hk, List.map_cons, List.mem_cons, hne,
        false_or]
      rw [ih]
      by_cases hmem : k ∈ rest.map Prod.fst <;> simp [hmem]

theorem keys_nodup_addToGroup {β : Type} {m : List (List Nat × List β)}
    (k : List Nat) (v : β) (h : (m.map Prod.fst).Nodup) :
    ((addToGroup m k v).map Prod.fst).Nodup := by
  rw [keys_addToGroup]
  by_cases hmem : k ∈ m.map Prod.fst
  · simpa [hmem] using h
  · simpa [hmem] using List.Nodup.append h (List.nodup_singleton k)
      (by simpa using hmem)

theorem keys_nodup_groupFold (keyOf : WPPost → Option (List Nat)) :
    ∀ (posts : List WPPost) (acc : List (List Nat × List WPPost)),
      (acc.map Prod.fst).Nodup →
      ((posts.foldl
        (fun m p =>
          match keyOf p with
          | none => m
          | some k' => addToGroup m k' p) acc).map Prod.fst).Nodup := by
  intro posts
  induction posts with
  | nil => intro acc h; exact h
  | cons p ps ih =>
    intro acc h
    rw [List.foldl_cons]
    cases hkey : keyOf p with
    | none => exact ih acc h
    | some k' => exact ih _ (keys_nodup_addToGroup k' p h)

theorem keys_nodup_groupByKey (keyOf : WPPost → Option (List Nat))
    (posts : List WPPost) :
    ((groupByKey keyOf posts).map Prod.fst).Nodup :=
  keys_nodup_groupFold keyOf posts [] (by simp)

theorem findV_of_mem {β : Type} :
    ∀ {m : List (List Nat × β)} {k : List Nat} {vs : β},
      (m.map Prod.fst).Nodup → (k, vs) ∈ m → findV k m = some vs := by
  intro m
  induction m with
  | nil => intro k vs _ h; simp at h
  | cons e rest ih =>
    intro k vs hnodup hmem
    obtain ⟨k', vs'⟩ := e
    rcases List.mem_cons.mp hmem with h | h
    · injection h with h1 h2
      subst h1; subst h2
      simp [findV]
    · rw [List.map_cons] at hnodup
      have hcons := List.nodup_cons.mp hnodup
      have hk : k' ≠ k := by
        intro e
        subst e
        exact hcons.1 (List.mem_map.mpr ⟨(k', vs), h, rfl⟩)
      simp [findV, hk, ih hcons.2 h]

theorem mem_of_findV {β : Type} :
    ∀ {m : List (List Nat × β)} {k : List Nat} {vs : β},
      findV k m = some vs → (k, vs) ∈ m := by
  intro m
  induction m with
  | nil => intro k vs h; simp [findV] at h
  | cons e rest ih =>
    intro k vs h
    obtain ⟨k', vs'⟩ := e
    by_cases hk : k' = k
    · subst hk
      simp [findV] at h
      subst h
      exact List.mem_cons_self _ _
    · simp [findV, hk] at h
      exact List.mem_cons_of_mem _ (ih h)

theorem mem_insertByW {α : Type} (w : α → Nat) (a x : α) :
    ∀ l : List α, (x ∈ insertByW w a l ↔ x = a ∨ x ∈ l) := by
  intro l
  induction l with
  | nil => simp [insertByW]
  | cons b l ih =>
    by_cases hw : w a < w b
    · simp only [insertByW, if_pos hw, List.mem_cons, ih]
      tauto
    · simp only [insertByW, if_neg hw, List.mem_cons]

theorem mem_sortDescBy {α : Type} (w : α → Nat) (x : α) :
    ∀ l : List α, (x ∈ sortDescBy w l ↔ x ∈ l) := by
  intro l
  induction l with
  | nil => simp [sortDescBy]
  | cons a l ih =>
    simp only [sortDescBy, mem_insertByW, ih, List.mem_cons]

theorem mkCountrySection_key (e : List Nat × List WPPost) :
    (mkCountrySection e).key = jstr "country-" ++ e.1 := by
  unfold mkCountrySection
  cases COUNTRY_META e.1 <;> rfl

theorem mkCountrySection_posts (e : List Nat × List WPPost) :
    (mkCountrySection e).posts = e.2.take 10 := by
  unfold mkCountrySection
  cases COUNTRY_META e.1 <;> rfl

/-- C7: grouping functions discard groups smaller than 2.  A country id whose
group holds exactly 1 post yields no `country-<id>` section, one holding
exactly 2 yields a section with those 2 posts; likewise each cross-filter
combination with exactly 1 matching post yields no section and with exactly 2
yields one. -/
theorem grouping_min_size (posts : List WPPost) (c : List Nat) :
    ((posts.filter (fun p => decide (getClass p (jstr "country") = some c))).length = 1 →
      ∀ s ∈ buildCountrySections posts, s.key ≠ jstr "country-" ++ c) ∧
    ((posts.filter (fun p => decide (getClass p (jstr "country") = some c))).length = 2 →
      ∃ s ∈ buildCountrySections posts,
        s.key = jstr "country-" ++ c ∧ s.posts.length = 2) ∧
    ∀ combo ∈ crossCombos,
      ((crossPosts posts combo).length = 1 →
        ∀ s ∈ buildCrossFilterSections posts, s.key ≠ combo.key) ∧
      ((crossPosts posts combo).length = 2 →
        ∃ s ∈ buildCrossFilterSections posts,
          s.key = combo.key ∧ s.posts.length = 2) := by
  refine ⟨?_, ?_, ?_⟩
  · intro h1 s hs hkey
    unfold buildCountrySections at hs
    obtain ⟨e, he, rfl⟩ := List.mem_map.mp hs
    obtain ⟨k, vs⟩ := e
    rw [mkCountrySection_key] at hkey
    have hc : k = c := List.append_cancel_left hkey
    subst hc
    rw [mem_sortDescBy] at he
    rw [List.mem_filter] at he
    obtain ⟨hmem, hlen⟩ := he
    have hfind := findV_of_mem (keys_nodup_groupByKey
      (fun p => getClass p (jstr "country")) posts) hmem
    rw [findV_groupByKey] at hfind
    by_cases hemp :
        posts.filter (fun p => decide (getClass p (jstr "country") = some k)) = []
    · rw [if_pos hemp] at hfind
      exact Option.noConfusion hfind
    · rw [if_neg hemp] at hfind
      have he2 : vs = posts.filter
          (fun p => decide (getClass p (jstr "country") = some k)) := by
        injection hfind.symm
      simp only [decide_eq_true_eq] at hlen
      rw [he2, h1] at hlen
      omega
  · intro h2
    set fl := posts.filter (fun p => decide (getClass p (jstr "country") = some c))
      with hfl
    have hne : fl ≠ [] := by
      intro e
      rw [e] at h2
      simp at h2
    have hfind : findV c (groupByKey (fun p => getClass p (jstr "country")) posts)
        = some fl := by
      rw [findV_groupByKey, if_neg hne]
    have hmem := mem_of_findV hfind
    refine ⟨mkCountrySection (c, fl), ?_, ?_, ?_⟩
    · unfold buildCountrySections
      apply List.mem_map_of_mem
      rw [mem_sortDescBy, List.mem_filter]
      exact ⟨hmem, by simp [h2]⟩
    · rw [mkCountrySection_key]
    · rw [mkCountrySection_posts]
      simp [List.length_take, h2]
  · intro combo hcombo
    constructor
    · intro h1 s hs hkey
      unfold buildCrossFilterSections at hs
      rw [List.mem_filter] at hs
      obtain ⟨hmap, hlen⟩ := hs
      obtain ⟨c', hc', rfl⟩ := List.mem_map.mp hmap
      have hkey' : c'.key = combo.key := hkey
      simp only [decide_eq_true_eq] at hlen
      simp [crossCombos] at hcombo hc'
      rcases hcombo with rfl | rfl <;> rcases hc' with rfl | rfl
      · simp only [mkCrossSection, List.length_take, h1] at hlen
        omega
      · exact absurd hkey' (by decide)
      · exact absurd hkey' (by decide)
      · simp only [mkCrossSection, List.length_take, h1] at hlen
        omega
    · intro h2
      refine ⟨mkCrossSection posts combo, ?_, rfl, ?_⟩
      · unfold buildCrossFilterSections
        rw [List.mem_filter]
        refine ⟨List.mem_map_of_mem _ hcombo, ?_⟩
        unfold mkCrossSection
        simp [List.length_take, h2]
      · unfold mkCrossSection
        simp [List.length_take, h2]

def c7PostA : WPPost :=
  { id := 1, title := [], date := [], categories := [],
    class_list := [jstr "country-16328", jstr "language-606"] }

def c7PostB : WPPost :=
  { id := 2, title := [], date := [], categories := [],
    class_list := [jstr "country-16328", jstr "language-606"] }

def c7PostC : WPPost :=
  { id := 3, title := [], date := [], categories := [],
    class_list := [jstr "country-649"] }

def c7Posts : List WPPost := [c7PostA, c7PostB, c7PostC]

/-- C7 witness: with two Turkish posts and one Indian post, the Turkish
country group (2 posts) and the Turkish-dubbed cross filter (2 posts) yield
sections while the Indian group (1 post) yields none. -/
theorem grouping_min_size_witness :
    (∃ s ∈ buildCountrySections c7Posts,
      s.key = jstr "country-" ++ jstr "16328" ∧ s.posts.length = 2) ∧
    (∀ s ∈ buildCountrySections c7Posts, s.key ≠ jstr "country-" ++ jstr "649") ∧
    ∃ s ∈ buildCrossFilterSections c7Posts,
      s.key = (crossCombos.get ⟨0, by decide⟩).key ∧ s.posts.length = 2 :=
  ⟨(grouping_min_size c7Posts (jstr "16328")).2.1 (by decide),
   (grouping_min_size c7Posts (jstr "649")).1 (by decide),
   ((grouping_min_size c7Posts []).2.2 (crossCombos.get ⟨0, by decide⟩)
      (List.get_mem _ _ _)).2 (by decide)⟩

/-! ### C10: label deduplication in `buildLanguageSections` -/

/-- The groups that pass the size and table checks of the language loop. -/
def langQualifying (g : List (List Nat × List WPPost)) :
    List (List Nat × List WPPost) :=
  g.filter (fun e => decide (2 ≤ e.2.length) && (LANG_META e.1).isSome)

def langLabelOf (e : List Nat × List WPPost) : List Nat :=
  match LANG_META e.1 with
  | some m => m.label
  | none => []

theorem langGo_keys_sub :
    ∀ (g : List (List Nat × List WPPost)) (seen : List (List Nat)) (x : List Nat),
      x ∈ (buildLanguageSectionsGo seen g).map DynamicSection.key →
      ∃ e ∈ g, x = jstr "lang-" ++ e.1 := by
  intro g
  induction g with
  | nil => intro seen x h; simp [buildLanguageSectionsGo] at h
  | cons e rest ih =>
    intro seen x h
    obtain ⟨id, ps⟩ := e
    by_cases h1 : ps.length < 2
    · rw [show buildLanguageSectionsGo seen ((id, ps) :: rest) =
          buildLanguageSectionsGo seen rest by
        simp [buildLanguageSectionsGo, h1]] at h
      obtain ⟨e', he', hx⟩ := ih seen x h
      exact ⟨e', List.mem_cons_of_mem _ he', hx⟩
    · cases hm : LANG_META id with
      | none =>
        rw [show buildLanguageSectionsGo seen ((id, ps) :: rest) =
            buildLanguageSectionsGo seen rest by
          simp [buildLanguageSectionsGo, h1, hm]] at h
        obtain ⟨e', he', hx⟩ := ih seen x h
        exact ⟨e', List.mem_cons_of_mem _ he', hx⟩
      | some meta =>
        by_cases hs : meta.label ∈ seen
        · rw [show buildLanguageSectionsGo seen ((id, ps) :: rest) =
              buildLanguageSectionsGo seen rest by
            simp [buildLanguageSectionsGo, h1, hm, hs]] at h
          obtain ⟨e', he', hx⟩ := ih seen x h
          exact ⟨e', List.mem_cons_of_mem _ he', hx⟩
        · rw [show buildLanguageSectionsGo seen ((id, ps) :: rest) =
              mkLangSection id meta ps ::
                buildLanguageSectionsGo (meta.label :: seen) rest by
            simp [buildLanguageSectionsGo, h1, hm, hs]] at h
          rw [List.map_cons, List.mem_cons] at h
          rcases h with h | h
          · exact ⟨(id, ps), List.mem_cons_self _ _, h⟩
          · obtain ⟨e', he', hx⟩ := ih _ x h
            exact ⟨e', List.mem_cons_of_mem _ he', hx⟩

theorem langGo_labels :
    ∀ (g : List (List Nat × List WPPost)) (seen : List (List Nat)),
      ((buildLanguageSectionsGo seen g).map DynamicSection.label).Nodup ∧
      ∀ lab ∈ (buildLanguageSectionsGo seen g).map DynamicSection.label,
        lab ∉ seen := by
  intro g
  induction g with
  | nil => intro seen; simp [buildLanguageSectionsGo]
  | cons e rest ih =>
    intro seen
    obtain ⟨id, ps⟩ := e
    by_cases h1 : ps.length < 2
    · rw [show buildLanguageSectionsGo seen ((id, ps) :: rest) =
          buildLanguageSectionsGo seen rest by
        simp [buildLanguageSectionsGo, h1]]
      exact ih seen
    · cases hm : LANG_META id with
      | none =>
        rw [show buildLanguageSectionsGo seen ((id, ps) :: rest) =
            buildLanguageSectionsGo seen rest by
          simp [buildLanguageSectionsGo, h1, hm]]
        exact ih seen
      | some meta =>
        by_cases hs : meta.label ∈ seen
        · rw [show buildLanguageSectionsGo seen ((id, ps) :: rest) =
              buildLanguageSectionsGo seen rest by
            simp [buildLanguageSectionsGo, h1, hm, hs]]
          exact ih seen
        · rw [show buildLanguageSectionsGo seen ((id, ps) :: rest) =
              mkLangSection id meta ps ::
                buildLanguageSectionsGo (meta.label :: seen) rest by
            simp [buildLanguageSectionsGo, h1, hm, hs]]
          obtain ⟨hnodup, hnotin⟩ := ih (meta.label :: seen)
          rw [List.map_cons]
          constructor
          · rw [List.nodup_cons]
            refine ⟨?_, hnodup⟩
            intro hmem
            have := hnotin _ hmem
            exact this (List.mem_cons_self _ _)
          · intro lab hlab
            rw [List.mem_cons] at hlab
            rcases hlab with rfl | hlab
            · exact hs
            · intro hlabseen
              exact hnotin _ hlab (List.mem_cons_of_mem _ hlabseen)

theorem langGo_key_iff :
    ∀ (g : List (List Nat × List WPPost)) (seen : List (List Nat)),
      (g.map Prod.fst).Nodup →
      ∀ i (hi : i < (langQualifying g).length),
        ((jstr "lang-" ++ ((langQualifying g).get ⟨i, hi⟩).1) ∈
            (buildLanguageSectionsGo seen g).map DynamicSection.key) ↔
          (langLabelOf ((langQualifying g).get ⟨i, hi⟩) ∉ seen ∧
            ∀ j (hj : j < (langQualifying g).length), j < i →
              langLabelOf ((langQualifying g).get ⟨j, hj⟩) ≠
                langLabelOf ((langQualifying g).get ⟨i, hi⟩)) := by
  intro g
  induction g with
  | nil => intro seen _ i hi; simp [langQualifying] at hi
  | cons e rest ih =>
    intro seen hnodup i hi
    obtain ⟨id, ps⟩ := e
    rw [List.map_cons, List.nodup_cons] at hnodup
    obtain ⟨hid, hnodup'⟩ := hnodup
    by_cases h1 : ps.length < 2
    · have hq : langQualifying ((id, ps) :: rest) = langQualifying rest := by
        have : ¬(2 ≤ ps.length) := by omega
        simp [langQualifying, List.filter_cons, this]
      have hgo : buildLanguageSectionsGo seen ((id, ps) :: rest) =
          buildLanguageSectionsGo seen rest := by
        simp [buildLanguageSectionsGo, h1]
      rw [hgo]
      revert hi
      rw [hq]
      intro hi
      exact ih seen hnodup' i hi
    · cases hm : LANG_META id with
      | none =>
        have hq : langQualifying ((id, ps) :: rest) = langQualifying rest := by
          simp [langQualifying, List.filter_cons, hm]
        have hgo : buildLanguageSectionsGo seen ((id, ps) :: rest) =
            buildLanguageSectionsGo seen rest := by
          simp [buildLanguageSectionsGo, h1, hm]
        rw [hgo]
        revert hi
        rw [hq]
        intro hi
        exact ih seen hnodup' i hi
      | some meta =>
        have hq : langQualifying ((id, ps) :: rest) =
            (id, ps) :: langQualifying rest := by
          have h2 : 2 ≤ ps.length := by omega
          simp [langQualifying, List.filter_cons, h2, hm]
        by_cases hs : meta.label ∈ seen
        · have hgo : buildLanguageSectionsGo seen ((id, ps) :: rest) =
              buildLanguageSectionsGo seen rest := by
            simp [buildLanguageSectionsGo, h1, hm, hs]
          rw [hgo]
          revert hi
          rw [hq]
          intro hi
          cases i with
          | zero =>
            constructor
            · intro hmem
              obtain ⟨e', he', hx⟩ := langGo_keys_sub rest seen _ hmem
              have heq : id = e'.1 := List.append_cancel_left hx
              have hmm : e'.1 ∈ rest.map Prod.fst :=
                List.mem_map_of_mem Prod.fst he'
              rw [← heq] at hmm
              exact absurd hmm hid
            · rintro ⟨hnot, _⟩
              have : langLabelOf ((id, ps) : List Nat × List WPPost) = meta.label := by
                simp [langLabelOf, hm]
              rw [show ((((id, ps) : List Nat × List WPPost) ::
                  langQualifying rest).get ⟨0, hi⟩) = (id, ps) from rfl] at hnot
              exact absurd (this ▸ hs) hnot
          | succ i' =>
            have hi' : i' < (langQualifying rest).length :=
              Nat.lt_of_succ_lt_succ hi
            rw [show ((((id, ps) : List Nat × List WPPost) ::
                langQualifying rest).get ⟨i' + 1, hi⟩) =
              (langQualifying rest).get ⟨i', hi'⟩ from rfl]
            rw [ih seen hnodup' i' hi']
            constructor
            · rintro ⟨hnot, hfirst⟩
              refine ⟨hnot, ?_⟩
              intro j hj hlt
              cases j with
              | zero =>
                rw [show ((((id, ps) : List Nat × List WPPost) ::
                    langQualifying rest).get ⟨0, hj⟩) = (id, ps) from rfl]
                intro heq
                have : langLabelOf ((id, ps) : List Nat × List WPPost) =
                    meta.label := by simp [langLabelOf, hm]
                rw [this] at heq
                exact hnot (heq ▸ hs)
              | succ j' =>
                have hj' : j' < (langQualifying rest).length :=
                  Nat.lt_of_succ_lt_succ hj
                rw [show ((((id, ps) : List Nat × List WPPost) ::
                    langQualifying rest).get ⟨j' + 1, hj⟩) =
                  (langQualifying rest).get ⟨j', hj'⟩ from rfl]
                exact hfirst j' hj' (Nat.lt_of_succ_lt_succ hlt)
            · rintro ⟨hnot, hfirst⟩
              refine ⟨hnot, ?_⟩
              intro j hj hlt
              have := hfirst (j + 1) (Nat.succ_lt_succ hj) (Nat.succ_lt_succ hlt)
              rw [show ((((id, ps) : List Nat × List WPPost) ::
                  langQualifying rest).get ⟨j + 1, Nat.succ_lt_succ hj⟩) =
                (langQualifying rest).get ⟨j, hj⟩ from rfl] at this
              exact this
        · have hgo : buildLanguageSectionsGo seen ((id, ps) :: rest) =
              mkLangSection id meta ps ::
                buildLanguageSectionsGo (meta.label :: seen) rest := by
            simp [buildLanguageSectionsGo, h1, hm, hs]
          rw [hgo]
          revert hi
          rw [hq]
          intro hi
          cases i with
          | zero =>
            rw [show ((((id, ps) : List Nat × List WPPost) ::
                langQualifying rest).get ⟨0, hi⟩) = (id, ps) from rfl]
            constructor
            · intro _
              refine ⟨?_, ?_⟩
              · have : langLabelOf ((id, ps) : List Nat × List WPPost) =
                    meta.label := by simp [langLabelOf, hm]
                rw [this]
                exact hs
              · intro j hj hlt
                omega
            · intro _
              rw [List.map_cons, List.mem_cons]
              exact Or.inl rfl
          | succ i' =>
            have hi' : i' < (langQualifying rest).length :=
              Nat.lt_of_succ_lt_succ hi
            rw [show ((((id, ps) : List Nat × List WPPost) ::
                langQualifying rest).get ⟨i' + 1, hi⟩) =
              (langQualifying rest).get ⟨i', hi'⟩ from rfl]
            have hidne : ((langQualifying rest).get ⟨i', hi'⟩).1 ≠ id := by
              intro heq
              have hmemq : (langQualifying rest).get ⟨i', hi'⟩ ∈
                  langQualifying rest := List.get_mem _ _ _
              have hmemr : (langQualifying rest).get ⟨i', hi'⟩ ∈ rest :=
                List.mem_of_mem_filter hmemq
              have hmm : ((langQualifying rest).get ⟨i', hi'⟩).1 ∈
                  rest.map Prod.fst := List.mem_map_of_mem Prod.fst hmemr
              rw [heq] at hmm
              exact hid hmm
            rw [List.map_cons, List.mem_cons]
            have hkeyne : jstr "lang-" ++ ((langQualifying rest).get ⟨i', hi'⟩).1 ≠
                (mkLangSection id meta ps).key := by
              intro heq
              exact hidne (List.append_cancel_left heq)
            rw [ih (meta.label :: seen) hnodup' i' hi']
            constructor
            · rintro (h | ⟨hnot, hfirst⟩)
              · exact absurd h hkeyne
              · rw [List.mem_cons] at hnot
                push_neg at hnot
                refine ⟨hnot.2, ?_⟩
                intro j hj hlt
                cases j with
                | zero =>
                  rw [show ((((id, ps) : List Nat × List WPPost) ::
                      langQualifying rest).get ⟨0, hj⟩) = (id, ps) from rfl]
                  have : langLabelOf ((id, ps) : List Nat × List WPPost) =
                      meta.label := by simp [langLabelOf, hm]
                  rw [this]
                  exact fun heq => hnot.1 heq.symm
                | succ j' =>
                  have hj' : j' < (langQualifying rest).length :=
                    Nat.lt_of_succ_lt_succ hj
                  rw [show ((((id, ps) : List Nat × List WPPost) ::
                      langQualifying rest).get ⟨j' + 1, hj⟩) =
                    (langQualifying rest).get ⟨j', hj'⟩ from rfl]
                  exact hfirst j' hj' (Nat.lt_of_succ_lt_succ hlt)
            · rintro ⟨hnot, hfirst⟩
              right
              constructor
              · rw [List.mem_cons]
                push_neg
                refine ⟨?_, hnot⟩
                have h0 := hfirst 0 (Nat.succ_pos _) (Nat.succ_pos _)
                rw [show ((((id, ps) : List Nat × List WPPost) ::
                    langQualifying rest).get ⟨0, Nat.succ_pos _⟩) = (id, ps)
                  from rfl] at h0
                have : langLabelOf ((id, ps) : List Nat × List WPPost) =
                    meta.label := by simp [langLabelOf, hm]
                rw [this] at h0
                exact fun heq => h0 heq.symm
              · intro j hj hlt
                have := hfirst (j + 1) (Nat.succ_lt_succ hj) (Nat.succ_lt_succ hlt)
                rw [show ((((id, ps) : List Nat × List WPPost) ::
                    langQualifying rest).get ⟨j + 1, Nat.succ_lt_succ hj⟩) =
                  (langQualifying rest).get ⟨j, hj⟩ from rfl] at this
                exact this

/-- C10: `buildLanguageSections` emits at most one section per display
label: output labels are pairwise distinct; moreover (`"595"` and `"34"`
being two distinct ids with the same label in `LANG_META`) a qualifying
language group contributes a section exactly when no earlier qualifying
group carries the same label, so of two label-sharing groups only the
first-encountered one is kept. -/
theorem buildLanguageSections_label_dedup (posts : List WPPost) :
    ((buildLanguageSections posts).map DynamicSection.label).Nodup ∧
    (LANG_META (jstr "595") = LANG_META (jstr "34") ∧ jstr "595" ≠ jstr "34") ∧
    ∀ i (hi : i < (langQualifying
        (groupByKey (fun p => getClass p (jstr "language")) posts)).length),
      ((jstr "lang-" ++ ((langQualifying
          (groupByKey (fun p => getClass p (jstr "language")) posts)).get
            ⟨i, hi⟩).1) ∈
          (buildLanguageSections posts).map DynamicSection.key) ↔
        ∀ j (hj : j < (langQualifying
            (groupByKey (fun p => getClass p (jstr "language")) posts)).length),
          j < i →
            langLabelOf ((langQualifying
              (groupByKey (fun p => getClass p (jstr "language")) posts)).get
                ⟨j, hj⟩) ≠
              langLabelOf ((langQualifying
                (groupByKey (fun p => getClass p (jstr "language")) posts)).get
                  ⟨i, hi⟩) := by
  refine ⟨(langGo_labels _ []).1, ⟨by decide, by decide⟩, ?_⟩
  intro i hi
  have hiff := langGo_key_iff
    (groupByKey (fun p => getClass p (jstr "language")) posts) []
    (keys_nodup_groupByKey _ _) i hi
  unfold buildLanguageSections
  rw [hiff]
  simp only [List.not_mem_nil, not_false_iff, true_and]

def c10PostA : WPPost :=
  { id := 1, title := [], date := [], categories := [],
    class_list := [jstr "language-595"] }

def c10PostB : WPPost :=
  { id := 2, title := [], date := [], categories := [],
    class_list := [jstr "language-595"] }

def c10PostC : WPPost :=
  { id := 3, title := [], date := [], categories := [],
    class_list := [jstr "language-34"] }

def c10PostD : WPPost :=
  { id := 4, title := [], date := [], categories := [],
    class_list := [jstr "language-34"] }

def c10Posts : List WPPost := [c10PostA, c10PostB, c10PostC, c10PostD]

/-- C10 witness: with two qualifying groups (`"595"` then `"34"`) that share
the label `مترجمة`, the section for the second group exists iff no earlier
group carries its label — which fails here, so only the first is kept. -/
theorem buildLanguageSections_label_dedup_witness :
    ((buildLanguageSections c10Posts).map DynamicSection.label).Nodup ∧
    ((jstr "lang-" ++ ((langQualifying
        (groupByKey (fun p => getClass p (jstr "language")) c10Posts)).get
          ⟨1, by decide⟩).1) ∈
        (buildLanguageSections c10Posts).map DynamicSection.key ↔
      ∀ j (hj : j < (langQualifying
          (groupByKey (fun p => getClass p (jstr "language")) c10Posts)).length),
        j < 1 →
          langLabelOf ((langQualifying
            (groupByKey (fun p => getClass p (jstr "language")) c10Posts)).get
              ⟨j, hj⟩) ≠
            langLabelOf ((langQualifying
              (groupByKey (fun p => getClass p (jstr "language")) c10Posts)).get
                ⟨1, by decide⟩)) :=
  ⟨(buildLanguageSections_label_dedup c10Posts).1,
   (buildLanguageSections_label_dedup c10Posts).2.2 1 (by decide)⟩

/-! ### C5 lemmas: the stable sort picks the first maximum -/

theorem length_insertByW {α : Type} (w : α → Nat) (a : α) :
    ∀ l : List α, (insertByW w a l).length = l.length + 1 := by
  intro l
  induction l with
  | nil => rfl
  | cons b l ih =>
    by_cases hw : w a < w b
    · simp [insertByW, hw, ih]
    · simp [insertByW, hw]

theorem length_sortDescBy {α : Type} (w : α → Nat) :
    ∀ l : List α, (sortDescBy w l).length = l.length := by
  intro l
  induction l with
  | nil => rfl
  | cons a l ih => simp [sortDescBy, length_insertByW, ih]

theorem sortDescBy_head_firstMax {α : Type} (w : α → Nat) :
    ∀ (l : List α), l ≠ [] →
      ∃ i, ∃ hi : i < l.length,
        (sortDescBy w l).head? = some (l.get ⟨i, hi⟩) ∧
        (∀ p ∈ l, w p ≤ w (l.get ⟨i, hi⟩)) ∧
        ∀ j (hj : j < l.length), j < i →
          w (l.get ⟨j, hj⟩) < w (l.get ⟨i, hi⟩) := by
  intro l
  induction l with
  | nil => intro h; exact absurd rfl h
  | cons a t ih =>
    intro _
    cases t with
    | nil =>
      refine ⟨0, Nat.succ_pos 0, rfl, ?_, ?_⟩
      · intro p hp
        rw [List.mem_singleton] at hp
        subst hp
        exact Nat.le_refl _
      · intro j hj hlt
        omega
    | cons b t' =>
      obtain ⟨i', hi', hhead, hmax, hfirst⟩ := ih (by simp)
      have hne : sortDescBy w (b :: t') ≠ [] := by
        intro he
        have := length_sortDescBy w (b :: t')
        rw [he] at this
        simp at this
      cases hst : sortDescBy w (b :: t') with
      | nil => exact absurd hst hne
      | cons m rest =>
        rw [hst] at hhead
        have hm : m = (b :: t').get ⟨i', hi'⟩ := by
          injection hhead
        show ∃ i, ∃ hi : i < (a :: b :: t').length,
          (insertByW w a (sortDescBy w (b :: t'))).head? =
            some ((a :: b :: t').get ⟨i, hi⟩) ∧ _ ∧ _
        rw [hst]
        by_cases hw : w a < w m
        · refine ⟨i' + 1, Nat.succ_lt_succ hi', ?_, ?_, ?_⟩
          · show (insertByW w a (m :: rest)).head? = _
            simp only [insertByW, if_pos hw]
            rw [List.head?_cons]
            rw [show ((a :: b :: t').get ⟨i' + 1, Nat.succ_lt_succ hi'⟩) =
              (b :: t').get ⟨i', hi'⟩ from rfl, hm]
          · intro p hp
            rw [show ((a :: b :: t').get ⟨i' + 1, Nat.succ_lt_succ hi'⟩) =
              (b :: t').get ⟨i', hi'⟩ from rfl]
            rcases List.mem_cons.mp hp with rfl | hp
            · rw [← hm] at *
              exact Nat.le_of_lt hw
            · exact hmax p hp
          · intro j hj hlt
            rw [show ((a :: b :: t').get ⟨i' + 1, Nat.succ_lt_succ hi'⟩) =
              (b :: t').get ⟨i', hi'⟩ from rfl]
            cases j with
            | zero =>
              rw [show ((a :: b :: t').get ⟨0, hj⟩) = a from rfl]
              rw [← hm] at *
              exact hw
            | succ j' =>
              have hj' : j' < (b :: t').length := Nat.lt_of_succ_lt_succ hj
              rw [show ((a :: b :: t').get ⟨j' + 1, hj⟩) =
                (b :: t').get ⟨j', hj'⟩ from rfl]
              exact hfirst j' hj' (Nat.lt_of_succ_lt_succ hlt)
        · refine ⟨0, Nat.succ_pos _, ?_, ?_, ?_⟩
          · show (insertByW w a (m :: rest)).head? = some a
            simp only [insertByW, if_neg hw]
            rfl
          · intro p hp
            show w p ≤ w a
            rcases List.mem_cons.mp hp with rfl | hp
            · exact Nat.le_refl _
            · have h1 : w p ≤ w ((b :: t').get ⟨i', hi'⟩) := hmax p hp
              rw [← hm] at h1
              exact Nat.le_trans h1 (Nat.le_of_not_lt hw)
          · intro j hj hlt
            omega

theorem pairwise_insertByW {α : Type} (w : α → Nat) (a : α) :
    ∀ {l : List α}, l.Pairwise (fun x y => w y ≤ w x) →
      (insertByW w a l).Pairwise (fun x y => w y ≤ w x) := by
  intro l
  induction l with
  | nil => intro _; simp [insertByW]
  | cons b l ih =>
    intro h
    rw [List.pairwise_cons] at h
    obtain ⟨hb, hl⟩ := h
    by_cases hw : w a < w b
    · rw [show insertByW w a (b :: l) = b :: insertByW w a l by
        simp [insertByW, hw]]
      rw [List.pairwise_cons]
      refine ⟨?_, ih hl⟩
      intro z hz
      rcases (mem_insertByW w a z l).mp hz with rfl | hz
      · exact Nat.le_of_lt hw
      · exact hb z hz
    · rw [show insertByW w a (b :: l) = a :: b :: l by simp [insertByW, hw]]
      rw [List.pairwise_cons]
      constructor
      · intro z hz
        rcases List.mem_cons.mp hz with rfl | hz
        · exact Nat.le_of_not_lt hw
        · exact Nat.le_trans (hb z hz) (Nat.le_of_not_lt hw)
      · rw [List.pairwise_cons]
        exact ⟨hb, hl⟩

theorem pairwise_sortDescBy {α : Type} (w : α → Nat) :
    ∀ l : List α, (sortDescBy w l).Pairwise (fun x y => w y ≤ w x) := by
  intro l
  induction l with
  | nil => simp [sortDescBy]
  | cons a l ih => exact pairwise_insertByW w a ih

/-! ### C5 lemmas: `yearCounts` is the frequency scan in first-encounter order -/

/-- First-occurrence deduplication: the order in which distinct values are
first encountered during a left-to-right scan. -/
def firstDedupGo (seen : List (List Nat)) : List (List Nat) → List (List Nat)
  | [] => []
  | y :: ys =>
    if y ∈ seen then firstDedupGo seen ys else y :: firstDedupGo (y :: seen) ys

def firstDedup (ys : List (List Nat)) : List (List Nat) := firstDedupGo [] ys

theorem firstDedupGo_congr :
    ∀ (ys : List (List Nat)) (s1 s2 : List (List Nat)),
      (∀ z : List Nat, z ∈ s1 ↔ z ∈ s2) → firstDedupGo s1 ys = firstDedupGo s2 ys := by
  intro ys
  induction ys with
  | nil => intro s1 s2 _; rfl
  | cons y ys ih =>
    intro s1 s2 h
    by_cases hy : y ∈ s1
    · rw [show firstDedupGo s1 (y :: ys) = firstDedupGo s1 ys by
        simp [firstDedupGo, hy]]
      rw [show firstDedupGo s2 (y :: ys) = firstDedupGo s2 ys by
        simp [firstDedupGo, (h y).mp hy]]
      exact ih s1 s2 h
    · have hy2 : y ∉ s2 := fun h2 => hy ((h y).mpr h2)
      rw [show firstDedupGo s1 (y :: ys) = y :: firstDedupGo (y :: s1) ys by
        simp [firstDedupGo, hy]]
      rw [show firstDedupGo s2 (y :: ys) = y :: firstDedupGo (y :: s2) ys by
        simp [firstDedupGo, hy2]]
      rw [ih (y :: s1) (y :: s2) (by intro z; simp [h z])]

theorem keys_bumpCount (m : List (List Nat × Nat)) (y : List Nat) :
    (bumpCount m y).map Prod.fst =
      if y ∈ m.map Prod.fst then m.map Prod.fst else m.map Prod.fst ++ [y] := by
  induction m with
  | nil => simp [bumpCount]
  | cons e rest ih =>
    obtain ⟨k, c⟩ := e
    by_cases hk : k = y
    · subst hk
      simp [bumpCount]
    · have hne : ¬(y = k) := fun e => hk e.symm
      simp only [bumpCount, if_neg hk, List.map_cons, List.mem_cons, hne,
        false_or]
      rw [ih]
      by_cases hmem : y ∈ rest.map Prod.fst <;> simp [hmem]

theorem keys_foldl_bumpCount :
    ∀ (ys : List (List Nat)) (m : List (List Nat × Nat)),
      (ys.foldl bumpCount m).map Prod.fst =
        m.map Prod.fst ++ firstDedupGo (m.map Prod.fst) ys := by
  intro ys
  induction ys with
  | nil => intro m; simp [firstDedupGo]
  | cons y ys ih =>
    intro m
    rw [List.foldl_cons, ih (bumpCount m y), keys_bumpCount]
    by_cases hy : y ∈ m.map Prod.fst
    · rw [if_pos hy]
      rw [show firstDedupGo (m.map Prod.fst) (y :: ys) =
          firstDedupGo (m.map Prod.fst) ys by simp [firstDedupGo, hy]]
    · rw [if_neg hy]
      rw [show firstDedupGo (m.map Prod.fst) (y :: ys) =
          y :: firstDedupGo (y :: m.map Prod.fst) ys by simp [firstDedupGo, hy]]
      rw [List.append_assoc, List.singleton_append]
      rw [firstDedupGo_congr ys (m.map Prod.fst ++ [y]) (y :: m.map Prod.fst)
        (by intro z; simp [List.mem_append, List.mem_cons, or_comm])]

theorem keys_yearCounts (ys : List (List Nat)) :
    (yearCounts ys).map Prod.fst = firstDedup ys := by
  unfold yearCounts firstDedup
  rw [keys_foldl_bumpCount ys []]
  rfl

theorem findV_bumpCount_same (m : List (List Nat × Nat)) (y : List Nat) :
    findV y (bumpCount m y) = some ((findV y m).getD 0 + 1) := by
  induction m with
  | nil => simp [bumpCount, findV]
  | cons e rest ih =>
    obtain ⟨k, c⟩ := e
    by_cases hk : k = y
    · subst hk
      simp [bumpCount, findV]
    · simp [bumpCount, findV, hk, ih]

theorem findV_bumpCount_other (m : List (List Nat × Nat)) {y y' : List Nat}
    (h : y' ≠ y) : findV y (bumpCount m y') = findV y m := by
  induction m with
  | nil => simp [bumpCount, findV, h]
  | cons e rest ih =>
    obtain ⟨k, c⟩ := e
    by_cases hk : k = y'
    · subst hk
      simp [bumpCount, findV, h]
    · simp [bumpCount, findV, hk, ih]

theorem findV_foldl_bumpCount (y : List Nat) :
    ∀ (ys : List (List Nat)) (m : List (List Nat × Nat)),
      findV y (ys.foldl bumpCount m) =
        match findV y m with
        | some c => some (c + ys.count y)
        | none => if y ∈ ys then some (ys.count y) else none := by
  intro ys
  induction ys with
  | nil =>
    intro m
    cases h : findV y m <;> simp [h]
  | cons z ys ih =>
    intro m
    rw [List.foldl_cons, ih (bumpCount m z)]
    by_cases hz : z = y
    · subst hz
      rw [findV_bumpCount_same]
      have hcount : (z :: ys).count z = ys.count z + 1 := by
        simp [List.count_cons]
      rw [hcount]
      cases h : findV z m with
      | some c => simp [h, findV]; omega
      | none =>
        simp [h, List.mem_cons]
        omega
    · rw [findV_bumpCount_other m hz]
      have hcount : (z :: ys).count y = ys.count y := by
        simp [List.count_cons, hz]
      rw [hcount]
      cases h : findV y m with
      | some c => simp
      | none =>
        by_cases hmem : y ∈ ys
        · have hmem2 : y ∈ z :: ys := List.mem_cons_of_mem _ hmem
          simp [hmem, hmem2]
        · have hmem2 : y ∉ z :: ys := by
            intro hc
            rcases List.mem_cons.mp hc with rfl | hc
            · exact hz rfl
            · exact hmem hc
          simp [hmem, hmem2]

theorem firstDedupGo_nodup :
    ∀ (ys : List (List Nat)) (seen : List (List Nat)),
      (firstDedupGo seen ys).Nodup ∧ ∀ z ∈ firstDedupGo seen ys, z ∉ seen := by
  intro ys
  induction ys with
  | nil => intro seen; simp [firstDedupGo]
  | cons y ys ih =>
    intro seen
    by_cases hy : y ∈ seen
    · rw [show firstDedupGo seen (y :: ys) = firstDedupGo seen ys by
        simp [firstDedupGo, hy]]
      exact ih seen
    · rw [show firstDedupGo seen (y :: ys) = y :: firstDedupGo (y :: seen) ys by
        simp [firstDedupGo, hy]]
      obtain ⟨hnodup, hnotin⟩ := ih (y :: seen)
      constructor
      · rw [List.nodup_cons]
        refine ⟨?_, hnodup⟩
        intro hmem
        exact hnotin y hmem (List.mem_cons_self _ _)
      · intro z hz
        rcases List.mem_cons.mp hz with rfl | hz
        · exact hy
        · intro hzseen
          exact hnotin z hz (List.mem_cons_of_mem _ hzseen)

theorem keys_yearCounts_nodup (ys : List (List Nat)) :
    ((yearCounts ys).map Prod.fst).Nodup := by
  rw [keys_yearCounts]
  exact (firstDedupGo_nodup ys []).1

theorem yearCounts_entry (ys : List (List Nat)) :
    ∀ p ∈ yearCounts ys, p.2 = ys.count p.1 ∧ p.1 ∈ ys := by
  intro p hp
  obtain ⟨k, c⟩ := p
  have hfind : findV k (yearCounts ys) = some c :=
    findV_of_mem (keys_yearCounts_nodup ys) hp
  rw [show yearCounts ys = ys.foldl bumpCount [] from rfl,
    findV_foldl_bumpCount k ys []] at hfind
  simp only [findV] at hfind
  by_cases hmem : k ∈ ys
  · rw [if_pos hmem] at hfind
    injection hfind with h
    exact ⟨h.symm, hmem⟩
  · rw [if_neg hmem] at hfind
    exact Option.noConfusion hfind

theorem yearCounts_ne_nil {ys : List (List Nat)} (h : ys ≠ []) :
    yearCounts ys ≠ [] := by
  intro he
  have hkeys := keys_yearCounts ys
  rw [he] at hkeys
  cases ys with
  | nil => exact h rfl
  | cons y ys =>
    rw [show firstDedup (y :: ys) = y :: firstDedupGo [y] ys by
      simp [firstDedup, firstDedupGo]] at hkeys
    simp at hkeys

theorem chosenYear_firstMax (yc : List (List Nat × Nat)) (h : yc ≠ []) :
    ∃ i, ∃ hi : i < yc.length,
      chosenYear yc = (yc.get ⟨i, hi⟩).1 ∧
      (∀ p ∈ yc, p.2 ≤ (yc.get ⟨i, hi⟩).2) ∧
      ∀ j (hj : j < yc.length), j < i →
        (yc.get ⟨j, hj⟩).2 < (yc.get ⟨i, hi⟩).2 := by
  obtain ⟨i, hi, hhead, hmax, hfirst⟩ := sortDescBy_head_firstMax Prod.snd yc h
  refine ⟨i, hi, ?_, hmax, hfirst⟩
  unfold chosenYear
  rw [hhead]

theorem buildYearSections_mem {yearOf : List Nat → List Nat}
    {currentYear : List Nat} {posts : List WPPost} {s : DynamicSection}
    (hs : s ∈ buildYearSections yearOf currentYear posts) :
    ∃ cls qs,
      (cls, qs) ∈ groupByKey (fun p => (safeClassList p).find? isReleaseYearTag) posts ∧
      2 ≤ qs.length ∧ s.key = jstr "year-" ++ cls ∧ s.posts = qs.take 10 ∧
      s.label = yearLabel currentYear
        (chosenYear (yearCounts (qs.map (fun p => yearOf p.date)))) := by
  simp only [buildYearSections] at hs
  rw [mem_sortDescBy] at hs
  rw [List.mem_filterMap] at hs
  obtain ⟨e, he, hfe⟩ := hs
  by_cases hlen : e.2.length < 2
  · rw [if_pos hlen] at hfe
    exact Option.noConfusion hfe
  · rw [if_neg hlen] at hfe
    injection hfe with hfe
    refine ⟨e.1, e.2, by simpa using he, by omega, ?_, ?_, ?_⟩
    · rw [← hfe]
    · rw [← hfe]
    · rw [← hfe]

/-- C5: in `buildYearSections` the representative year of each group is the
mode of the group's publish years, ties broken in favour of the
first-encountered year during the frequency scan, and sections are returned
in descending order of the numeric year extracted from the label.
Concretely: (a) `yearCounts` lists the distinct years in first-encounter
order with their multiplicities; (b) `chosenYear` picks the entry whose
count is maximal and strictly exceeds every earlier entry's count; (c) every
emitted section is labelled with `chosenYear` of its own group's publish
years (groups of ≥ 2 posts only, capped at 10); (d) the output is pairwise
sorted by descending extracted label year. -/
theorem buildYearSections_mode_and_order
    (yearOf : List Nat → List Nat) (currentYear : List Nat)
    (posts : List WPPost) (ys : List (List Nat)) (hys : ys ≠ []) :
    ((yearCounts ys).map Prod.fst = firstDedup ys ∧
      ∀ p ∈ yearCounts ys, p.2 = ys.count p.1) ∧
    (∃ i, ∃ hi : i < (yearCounts ys).length,
      chosenYear (yearCounts ys) = ((yearCounts ys).get ⟨i, hi⟩).1 ∧
      (∀ p ∈ yearCounts ys, p.2 ≤ ((yearCounts ys).get ⟨i, hi⟩).2) ∧
      ∀ j (hj : j < (yearCounts ys).length), j < i →
        ((yearCounts ys).get ⟨j, hj⟩).2 < ((yearCounts ys).get ⟨i, hi⟩).2) ∧
    (∀ s ∈ buildYearSections yearOf currentYear posts,
      ∃ cls qs,
        (cls, qs) ∈ groupByKey
          (fun p => (safeClassList p).find? isReleaseYearTag) posts ∧
        2 ≤ qs.length ∧ s.key = jstr "year-" ++ cls ∧ s.posts = qs.take 10 ∧
        s.label = yearLabel currentYear
          (chosenYear (yearCounts (qs.map (fun p => yearOf p.date))))) ∧
    (buildYearSections yearOf currentYear posts).Pairwise
      (fun a b => extractYear4 b.label ≤ extractYear4 a.label) := by
  refine ⟨⟨keys_yearCounts ys, fun p hp => (yearCounts_entry ys p hp).1⟩,
    chosenYear_firstMax (yearCounts ys) (yearCounts_ne_nil hys),
    fun s hs => buildYearSections_mem hs, ?_⟩
  exact pairwise_sortDescBy (fun s : DynamicSection => extractYear4 s.label) _

/-- C5 witness: the theorem at publish years `["2024", "2024", "2023"]`
(mode 2024) with no posts. -/
theorem buildYearSections_mode_and_order_witness :
    ((yearCounts [jstr "2024", jstr "2024", jstr "2023"]).map Prod.fst =
        firstDedup [jstr "2024", jstr "2024", jstr "2023"] ∧
      ∀ p ∈ yearCounts [jstr "2024", jstr "2024", jstr "2023"],
        p.2 = [jstr "2024", jstr "2024", jstr "2023"].count p.1) ∧
    (∃ i, ∃ hi : i < (yearCounts [jstr "2024", jstr "2024", jstr "2023"]).length,
      chosenYear (yearCounts [jstr "2024", jstr "2024", jstr "2023"]) =
        ((yearCounts [jstr "2024", jstr "2024", jstr "2023"]).get ⟨i, hi⟩).1 ∧
      (∀ p ∈ yearCounts [jstr "2024", jstr "2024", jstr "2023"],
        p.2 ≤ ((yearCounts [jstr "2024", jstr "2024", jstr "2023"]).get ⟨i, hi⟩).2) ∧
      ∀ j (hj : j < (yearCounts [jstr "2024", jstr "2024", jstr "2023"]).length),
        j < i →
          ((yearCounts [jstr "2024", jstr "2024", jstr "2023"]).get ⟨j, hj⟩).2 <
            ((yearCounts [jstr "2024", jstr "2024", jstr "2023"]).get ⟨i, hi⟩).2) ∧
    (∀ s ∈ buildYearSections (fun d => d) (jstr "2025") [],
      ∃ cls qs,
        (cls, qs) ∈ groupByKey
          (fun p => (safeClassList p).find? isReleaseYearTag) [] ∧
        2 ≤ qs.length ∧ s.key = jstr "year-" ++ cls ∧ s.posts = qs.take 10 ∧
        s.label = yearLabel (jstr "2025")
          (chosenYear (yearCounts (qs.map (fun p => (fun d => d) p.date))))) ∧
    (buildYearSections (fun d => d) (jstr "2025") []).Pairwise
      (fun a b => extractYear4 b.label ≤ extractYear4 a.label) :=
  buildYearSections_mode_and_order (fun d => d) (jstr "2025") []
    [jstr "2024", jstr "2024", jstr "2023"] (by decide)

example : chosenYear (yearCounts [jstr "2024", jstr "2024", jstr "2023"]) =
    jstr "2024" := by decide
example : chosenYear (yearCounts [jstr "2023", jstr "2024", jstr "2024"]) =
    jstr "2024" := by decide
example : chosenYear (yearCounts [jstr "2023", jstr "2024"]) = jstr "2023" := by
  decide
example : extractYear4 (jstr "أفلام 2024") = 2024 := by decide
